import Mathlib

/-!
Verification of the SimpleCalendar widget (src/calendar.js, most evolved
variant).  The development shallowly embeds the date↔string codec
(`time_to_string` / `string_to_time`), the month-grid builder (`set_date`),
the holiday matcher (`is_holiday`), and the overlay lifecycle
(`show` / `hide` / `hide_if_inactive` and the focus/blur handlers) and
proves the specified properties about them.
-/

namespace SimpleCalendar

/-- A calendar date (year, month 1-12, day 1-31). -/
structure Ymd where
  y : Nat
  m : Nat
  d : Nat
deriving DecidableEq, Repr

/-- A civil date-time: the decoded value produced by `string_to_time`. -/
structure CivilDate where
  y : Nat
  m : Nat
  d : Nat
  hh : Nat
  mi : Nat
  ss : Nat
deriving DecidableEq, Repr

/-- Gregorian leap-year rule (what JS `Date` implements). -/
def isLeap (y : Nat) : Bool :=
  (y % 4 == 0 && y % 100 != 0) || y % 400 == 0

/-- Number of days in a month; the source obtains it as
`new Date(year, month, 0).getDate()`. -/
def daysInMonth (y m : Nat) : Nat :=
  if m = 2 then (if isLeap y then 29 else 28)
  else if m = 4 ∨ m = 6 ∨ m = 9 ∨ m = 11 then 30
  else 31

theorem daysInMonth_pos (y m : Nat) : 0 < daysInMonth y m := by
  unfold daysInMonth; repeat' split
  all_goals omega

theorem daysInMonth_le (y m : Nat) : daysInMonth y m ≤ 31 := by
  unfold daysInMonth; repeat' split
  all_goals omega

theorem le_daysInMonth (y m : Nat) : 28 ≤ daysInMonth y m := by
  unfold daysInMonth; repeat' split
  all_goals omega

/-- A syntactically valid calendar date. -/
def validYmd (x : Ymd) : Prop :=
  1 ≤ x.m ∧ x.m ≤ 12 ∧ 1 ≤ x.d ∧ x.d ≤ daysInMonth x.y x.m

instance (x : Ymd) : Decidable (validYmd x) := by unfold validYmd; infer_instance

/-- Day-overflow normalization of JS `Date`: while the day exceeds the
month length, carry into the following month.  The fuel bounds the number
of carries; it is always instantiated with a value that is at least the
day count, which suffices because every carry removes at least 28 days. -/
def rollDay : Nat → Nat → Nat → Nat → Ymd
  | 0, y, m, d => ⟨y, m, d⟩
  | fuel + 1, y, m, d =>
    if d ≤ daysInMonth y m then ⟨y, m, d⟩
    else if m = 12 then rollDay fuel (y + 1) 1 (d - 31)
    else rollDay fuel y (m + 1) (d - daysInMonth y m)

theorem rollDay_of_le (fuel y m d : Nat) (h : d ≤ daysInMonth y m) :
    rollDay fuel y m d = ⟨y, m, d⟩ := by
  cases fuel <;> simp [rollDay, h]

/-- JS `dt.setDate(v)` on a date-only value. -/
def setDate (x : Ymd) (v : Nat) : Ymd := rollDay v x.y x.m v

/-- JS `dt.setMonth(mIdx)` with a 0-based month index: the year absorbs
whole-year overflows and the day is then normalized. -/
def setMonth (x : Ymd) (mIdx : Nat) : Ymd :=
  rollDay x.d (x.y + mIdx / 12) (mIdx % 12 + 1) x.d

/-- JS `dt.setFullYear(v)` on a date-only value (a Feb 29 under a
non-leap target year rolls over to Mar 1, as JS does). -/
def setFullYear (x : Ymd) (v : Nat) : Ymd := rollDay x.d v x.m x.d

/-- `SimpleCalendar.get_next_day`: `nextDay.setDate(date.getDate() + 1)`. -/
def get_next_day (x : Ymd) : Ymd := setDate x (x.d + 1)

/-- `SimpleCalendar.get_previous_day`: for day 1 it steps the month back
(`setMonth(getMonth() - 1)`, wrapping into December of the previous year)
and then sets the day to the length of that month
(`new Date(y, m, 0).getDate()`); otherwise it decrements the day. -/
def get_previous_day (x : Ymd) : Ymd :=
  if x.d = 1 then
    let p : Ymd := if x.m = 1 then ⟨x.y - 1, 12, 1⟩ else ⟨x.y, x.m - 1, 1⟩
    ⟨p.y, p.m, daysInMonth p.y p.m⟩
  else ⟨x.y, x.m, x.d - 1⟩

/-- Number of leap years in `[1, n]`. -/
def leapCount (n : Nat) : Nat := n / 4 - n / 100 + n / 400

/-- Cumulative day count of the months before month `m` in a common year. -/
def monthOffset : Nat → Nat
  | 1 => 0 | 2 => 31 | 3 => 59 | 4 => 90 | 5 => 120 | 6 => 151
  | 7 => 181 | 8 => 212 | 9 => 243 | 10 => 273 | 11 => 304 | _ => 334

/-- Days before month `m` of year `y`. -/
def daysBeforeMonth (y m : Nat) : Nat :=
  monthOffset m + (if 3 ≤ m ∧ isLeap y then 1 else 0)

/-- Rata-die day number (0001-01-01 ↦ 1) of a proleptic Gregorian date;
this is the day-count model of the JS `Date` timestamp. -/
def rataDie (x : Ymd) : Nat :=
  365 * (x.y - 1) + leapCount (x.y - 1) + daysBeforeMonth x.y x.m + x.d

/-- JS `getDay()` weekday: Sunday = 0 … Saturday = 6.  Rata die 1
(0001-01-01) was a Monday, so the plain remainder gives the JS mapping. -/
def weekday (x : Ymd) : Nat := rataDie x % 7

/-- Days in a year. -/
def daysInYear (y : Nat) : Nat := if isLeap y then 366 else 365

theorem leapCount_succ (n : Nat) :
    leapCount (n + 1) = leapCount n + (if isLeap (n + 1) then 1 else 0) := by
  unfold leapCount isLeap
  split <;> rename_i h <;>
    simp only [Bool.or_eq_true, Bool.and_eq_true, beq_iff_eq, bne_iff_ne] at h <;>
    omega

theorem daysBeforeMonth_succ (y m : Nat) (h1 : 1 ≤ m) (h2 : m ≤ 11) :
    daysBeforeMonth y (m + 1) = daysBeforeMonth y m + daysInMonth y m := by
  unfold daysBeforeMonth daysInMonth monthOffset
  cases hb : isLeap y <;> interval_cases m <;> simp [hb]

theorem daysBeforeMonth_dec (y : Nat) : daysBeforeMonth y 12 + 31 = daysInYear y := by
  unfold daysBeforeMonth daysInYear monthOffset
  cases hb : isLeap y <;> simp [hb]

/-- The start-of-year part of `rataDie`. -/
def yearStart (y : Nat) : Nat := 365 * (y - 1) + leapCount (y - 1)

theorem rataDie_eq (x : Ymd) :
    rataDie x = yearStart x.y + (daysBeforeMonth x.y x.m + x.d) := by
  unfold rataDie yearStart; omega

theorem yearStart_succ (y : Nat) (h : 1 ≤ y) :
    yearStart (y + 1) = yearStart y + daysInYear y := by
  unfold yearStart daysInYear
  have := leapCount_succ (y - 1)
  have hy : y - 1 + 1 = y := by omega
  rw [hy] at this
  split at this <;> rename_i hb <;> simp [hb] <;> omega

theorem yearOffset_bounds (x : Ymd) (h : validYmd x) :
    1 ≤ daysBeforeMonth x.y x.m + x.d ∧
    daysBeforeMonth x.y x.m + x.d ≤ daysInYear x.y := by
  obtain ⟨h1, h2, h3, h4⟩ := h
  unfold daysBeforeMonth daysInYear monthOffset at *
  unfold daysInMonth at h4
  cases hb : isLeap x.y <;> rw [hb] at h4 <;>
    interval_cases hm : x.m <;> simp [hb] at h4 ⊢ <;> omega

theorem daysInYear_ge (y : Nat) : 365 ≤ daysInYear y := by
  unfold daysInYear; split <;> omega

theorem yearStart_mono (y₁ y₂ : Nat) (h0 : 1 ≤ y₁) (h : y₁ ≤ y₂) :
    yearStart y₁ ≤ yearStart y₂ := by
  induction y₂ with
  | zero => omega
  | succ n ih =>
    rcases Nat.lt_or_ge y₁ (n + 1) with hlt | hge
    · have hn : 1 ≤ n := by omega
      have hs := yearStart_succ n hn
      have hi := ih (by omega)
      have hd := daysInYear_ge n
      omega
    · have he : y₁ = n + 1 := by omega
      rw [he]

theorem yearStart_gap (y₁ y₂ : Nat) (h0 : 1 ≤ y₁) (h : y₁ < y₂) :
    yearStart y₁ + daysInYear y₁ ≤ yearStart y₂ := by
  have h1 := yearStart_succ y₁ h0
  have h2 := yearStart_mono (y₁ + 1) y₂ (by omega) (by omega)
  omega

theorem daysBeforeMonth_mono (y m₁ m₂ : Nat) (h1 : 1 ≤ m₁) (h : m₁ < m₂)
    (h2 : m₂ ≤ 12) :
    daysBeforeMonth y m₁ + daysInMonth y m₁ ≤ daysBeforeMonth y m₂ := by
  induction m₂ with
  | zero => omega
  | succ n ih =>
    rcases Nat.lt_or_ge m₁ n with hlt | hge
    · have hs := daysBeforeMonth_succ y n (by omega) (by omega)
      have hi := ih hlt (by omega)
      have hp := daysInMonth_pos y n
      omega
    · have he : m₁ = n := by omega
      subst he
      have hs := daysBeforeMonth_succ y m₁ (by omega) (by omega)
      omega

/-- `rataDie` is injective on valid dates with positive years: it is a
faithful linearization of the calendar. -/
theorem rataDie_inj (a b : Ymd) (ha : validYmd a) (hb : validYmd b)
    (hya : 1 ≤ a.y) (hyb : 1 ≤ b.y) (h : rataDie a = rataDie b) : a = b := by
  obtain ⟨ya, ma, da⟩ := a
  obtain ⟨yb, mb, db⟩ := b
  have hoa := yearOffset_bounds ⟨ya, ma, da⟩ ha
  have hob := yearOffset_bounds ⟨yb, mb, db⟩ hb
  have hra := rataDie_eq ⟨ya, ma, da⟩
  have hrb := rataDie_eq ⟨yb, mb, db⟩
  simp only at hoa hob hra hrb hya hyb ⊢
  have hy : ya = yb := by
    rcases Nat.lt_trichotomy ya yb with hlt | heq | hgt
    · exfalso
      have hg := yearStart_gap ya yb hya hlt
      omega
    · exact heq
    · exfalso
      have hg := yearStart_gap yb ya hyb hgt
      omega
  subst hy
  have hoff : daysBeforeMonth ya ma + da = daysBeforeMonth ya mb + db := by
    omega
  obtain ⟨ha1, ha2, ha3, ha4⟩ := ha
  obtain ⟨hb1, hb2, hb3, hb4⟩ := hb
  simp only at ha1 ha2 ha3 ha4 hb1 hb2 hb3 hb4
  have hm1 : ma = mb := by
    rcases Nat.lt_trichotomy ma mb with hlt | heq | hgt
    · exfalso
      have hmo := daysBeforeMonth_mono ya ma mb ha1 hlt hb2
      omega
    · exact heq
    · exfalso
      have hmo := daysBeforeMonth_mono ya mb ma hb1 hgt ha2
      omega
  subst hm1
  have hd : da = db := by omega
  simp [hd]

theorem rollDay_succ (fuel y m d : Nat) :
    rollDay (fuel + 1) y m d =
      if d ≤ daysInMonth y m then ⟨y, m, d⟩
      else if m = 12 then rollDay fuel (y + 1) 1 (d - 31)
      else rollDay fuel y (m + 1) (d - daysInMonth y m) := rfl

theorem daysInMonth_12 (y : Nat) : daysInMonth y 12 = 31 := by
  unfold daysInMonth; norm_num

theorem validYmd_mk (y m d : Nat) :
    validYmd ⟨y, m, d⟩ ↔ 1 ≤ m ∧ m ≤ 12 ∧ 1 ≤ d ∧ d ≤ daysInMonth y m := Iff.rfl

theorem rataDie_mk (y m d : Nat) :
    rataDie ⟨y, m, d⟩ = yearStart y + (daysBeforeMonth y m + d) := rataDie_eq _

theorem daysBeforeMonth_one (y : Nat) : daysBeforeMonth y 1 = 0 := by
  unfold daysBeforeMonth monthOffset; norm_num

theorem get_next_day_spec (x : Ymd) (h : validYmd x) (hy : 1 ≤ x.y) :
    validYmd (get_next_day x) ∧ 1 ≤ (get_next_day x).y ∧
    rataDie (get_next_day x) = rataDie x + 1 := by
  obtain ⟨y, m, d⟩ := x
  rw [validYmd_mk] at h
  obtain ⟨h1, h2, h3, h4⟩ := h
  simp only at hy
  unfold get_next_day setDate
  simp only
  rcases Nat.lt_or_ge d (daysInMonth y m) with hlt | hge
  · rw [rollDay_of_le _ _ _ _ (by omega)]
    refine ⟨(validYmd_mk _ _ _).mpr (by omega), by simpa, ?_⟩
    rw [rataDie_mk, rataDie_mk]
    omega
  · have hde : d = daysInMonth y m := by omega
    rw [rollDay_succ, if_neg (by omega)]
    by_cases hm12 : m = 12
    · subst hm12
      have hd31 : d = 31 := by rw [hde, daysInMonth_12]
      rw [if_pos rfl, show d + 1 - 31 = 1 by omega,
        rollDay_of_le _ _ _ _ (by have := daysInMonth_pos (y + 1) 1; omega)]
      refine ⟨(validYmd_mk _ _ _).mpr
        (by have := daysInMonth_pos (y + 1) 1; omega), by simp, ?_⟩
      rw [rataDie_mk, rataDie_mk]
      have hys := yearStart_succ y hy
      have hdec := daysBeforeMonth_dec y
      have hdbm1 := daysBeforeMonth_one (y + 1)
      omega
    · rw [if_neg hm12, show d + 1 - daysInMonth y m = 1 by omega,
        rollDay_of_le _ _ _ _ (by have := daysInMonth_pos y (m + 1); omega)]
      refine ⟨(validYmd_mk _ _ _).mpr
        (by have := daysInMonth_pos y (m + 1); omega), by simpa, ?_⟩
      rw [rataDie_mk, rataDie_mk]
      have hsucc := daysBeforeMonth_succ y m h1 (by omega)
      omega

theorem get_previous_day_spec (x : Ymd) (h : validYmd x) (hy : 1 ≤ x.y)
    (hroom : 2 ≤ x.y ∨ 2 ≤ x.m ∨ 2 ≤ x.d) :
    validYmd (get_previous_day x) ∧ 1 ≤ (get_previous_day x).y ∧
    rataDie (get_previous_day x) + 1 = rataDie x := by
  obtain ⟨y, m, d⟩ := x
  rw [validYmd_mk] at h
  obtain ⟨h1, h2, h3, h4⟩ := h
  simp only at hy hroom
  unfold get_previous_day
  simp only
  by_cases hd1 : d = 1
  · rw [if_pos hd1]
    subst hd1
    by_cases hm1 : m = 1
    · subst hm1
      rw [if_pos rfl]
      simp only
      have hy2 : 2 ≤ y := by omega
      have hdp := daysInMonth_pos (y - 1) 12
      refine ⟨(validYmd_mk _ _ _).mpr (by omega), by show 1 ≤ y - 1; omega, ?_⟩
      rw [rataDie_mk, rataDie_mk]
      have hys := yearStart_succ (y - 1) (by omega)
      rw [show y - 1 + 1 = y by omega] at hys
      have hdec := daysBeforeMonth_dec (y - 1)
      have hd31 := daysInMonth_12 (y - 1)
      have hdbm1 := daysBeforeMonth_one y
      omega
    · rw [if_neg hm1]
      simp only
      have hdp := daysInMonth_pos y (m - 1)
      refine ⟨(validYmd_mk _ _ _).mpr (by omega), by simpa, ?_⟩
      rw [rataDie_mk, rataDie_mk]
      have hsucc := daysBeforeMonth_succ y (m - 1) (by omega) (by omega)
      rw [show m - 1 + 1 = m by omega] at hsucc
      omega
  · rw [if_neg hd1]
    refine ⟨(validYmd_mk _ _ _).mpr (by omega), by simpa, ?_⟩
    rw [rataDie_mk, rataDie_mk]
    omega

/-- Iterated `get_next_day`, as performed by the `set_date` cell loop. -/
def nextIter : Nat → Ymd → Ymd
  | 0, x => x
  | k + 1, x => nextIter k (get_next_day x)

/-- Iterated `get_previous_day`. -/
def prevIter : Nat → Ymd → Ymd
  | 0, x => x
  | k + 1, x => prevIter k (get_previous_day x)

theorem nextIter_spec (k : Nat) (x : Ymd) (h : validYmd x) (hy : 1 ≤ x.y) :
    validYmd (nextIter k x) ∧ 1 ≤ (nextIter k x).y ∧
    rataDie (nextIter k x) = rataDie x + k := by
  induction k generalizing x with
  | zero => exact ⟨h, hy, rfl⟩
  | succ n ih =>
    obtain ⟨hv, hy1, hr⟩ := get_next_day_spec x h hy
    obtain ⟨hv2, hy2, hr2⟩ := ih (get_next_day x) hv hy1
    exact ⟨hv2, hy2, by unfold nextIter; omega⟩

theorem prevIter_day (k : Nat) (x : Ymd) (hk : k < x.d) :
    prevIter k x = ⟨x.y, x.m, x.d - k⟩ := by
  induction k generalizing x with
  | zero => simp [prevIter]
  | succ n ih =>
    unfold prevIter
    have hd : ¬ x.d = 1 := by omega
    unfold get_previous_day
    rw [if_neg hd]
    rw [ih ⟨x.y, x.m, x.d - 1⟩ (by simp; omega)]
    simp
    omega

theorem nextIter_succ_out (k : Nat) (x : Ymd) :
    nextIter (k + 1) x = get_next_day (nextIter k x) := by
  induction k generalizing x with
  | zero => rfl
  | succ n ih =>
    show nextIter (n + 1) (get_next_day x) = _
    rw [ih (get_next_day x)]
    rfl

/-- ISO weekday of the first of the displayed month as computed in
`set_date`: `first_day_date.getDay()`, with a native Sunday (0) remapped
to 7. -/
def first_day_of_week (y m : Nat) : Nat :=
  if weekday ⟨y, m, 1⟩ = 0 then 7 else weekday ⟨y, m, 1⟩

/-- Anchor date of the grid, from `set_date`:
`new Date(om.getFullYear(), om.getMonth(), om.getDate() - first_day_of_week + 2, 0, 0, 0)`
where `om = get_previous_day(first_day_date)` is the last day of the
previous month.  The JS constructor normalizes a day argument exceeding
the month length (which happens exactly when the month starts on Monday). -/
def grid_start (y m : Nat) : Ymd :=
  let om := get_previous_day ⟨y, m, 1⟩
  rollDay (om.d + 2 - first_day_of_week y m) om.y om.m
    (om.d + 2 - first_day_of_week y m)

/-- Day-cell count: `create_calendar` builds 6 rows of 7 day cells. -/
def day_cell_count : Nat := 6 * 7

/-- The cell dates assigned by the `set_date` loop: the anchor date,
advanced by `get_next_day` once per visited cell. -/
def grid_dates (y m : Nat) : List Ymd :=
  (List.range day_cell_count).map (fun i => nextIter i (grid_start y m))

theorem first_day_of_week_bounds (y m : Nat) :
    1 ≤ first_day_of_week y m ∧ first_day_of_week y m ≤ 7 := by
  unfold first_day_of_week weekday
  split <;> omega

theorem om_day_eq (y m : Nat) :
    (get_previous_day ⟨y, m, 1⟩).d =
      daysInMonth (get_previous_day ⟨y, m, 1⟩).y (get_previous_day ⟨y, m, 1⟩).m := by
  unfold get_previous_day
  by_cases hm : m = 1 <;> simp [hm]

theorem grid_start_spec (y m : Nat) (hm1 : 1 ≤ m) (hm2 : m ≤ 12) (hy : 2 ≤ y) :
    validYmd (grid_start y m) ∧ 1 ≤ (grid_start y m).y ∧
    rataDie (grid_start y m) + (first_day_of_week y m - 1) = rataDie ⟨y, m, 1⟩ ∧
    grid_start y m = prevIter (first_day_of_week y m - 1) ⟨y, m, 1⟩ := by
  have hvf : validYmd ⟨y, m, 1⟩ :=
    (validYmd_mk _ _ _).mpr ⟨hm1, hm2, by omega, daysInMonth_pos y m⟩
  obtain ⟨hvo, hyo, hro⟩ :=
    get_previous_day_spec ⟨y, m, 1⟩ hvf (by simp; omega) (by simp; omega)
  have hod := om_day_eq y m
  have hdmin := le_daysInMonth (get_previous_day ⟨y, m, 1⟩).y (get_previous_day ⟨y, m, 1⟩).m
  obtain ⟨hw1, hw7⟩ := first_day_of_week_bounds y m
  set om := get_previous_day ⟨y, m, 1⟩ with hom
  set w := first_day_of_week y m with hwdef
  unfold grid_start
  rw [← hom, ← hwdef]
  simp only
  by_cases hw : w = 1
  · have harg : om.d + 2 - w = om.d + 1 := by omega
    rw [harg]
    have hnext : rollDay (om.d + 1) om.y om.m (om.d + 1) = get_next_day om := by
      unfold get_next_day setDate; rfl
    rw [hnext]
    obtain ⟨hvn, hyn, hrn⟩ := get_next_day_spec om hvo hyo
    have heq : get_next_day om = ⟨y, m, 1⟩ := by
      apply rataDie_inj _ _ hvn hvf hyn (by simp; omega)
      omega
    rw [hw, heq]
    refine ⟨hvf, by simp; omega, by omega, rfl⟩
  · have harg : om.d + 2 - w ≤ om.d := by omega
    rw [rollDay_of_le _ _ _ _ (by omega)]
    have hvg : validYmd ⟨om.y, om.m, om.d + 2 - w⟩ := by
      rw [validYmd_mk]
      obtain ⟨o1, o2, o3, o4⟩ := hvo
      omega
    refine ⟨hvg, by simp; omega, ?_, ?_⟩
    · rw [rataDie_mk]
      have hroe := rataDie_eq om
      omega
    · have hsplit : w - 1 = (w - 2) + 1 := by omega
      rw [hsplit]
      show _ = prevIter (w - 2) (get_previous_day ⟨y, m, 1⟩)
      rw [← hom, prevIter_day (w - 2) om (by omega)]
      have : om.d - (w - 2) = om.d + 2 - w := by omega
      rw [this]

theorem weekday_grid_start (y m : Nat) (hm1 : 1 ≤ m) (hm2 : m ≤ 12) (hy : 2 ≤ y) :
    weekday (grid_start y m) = 1 := by
  obtain ⟨hv, hy1, hr, _⟩ := grid_start_spec y m hm1 hm2 hy
  obtain ⟨hw1, hw7⟩ := first_day_of_week_bounds y m
  have hbig : 365 ≤ rataDie ⟨y, m, 1⟩ := by
    unfold rataDie; simp; omega
  unfold weekday
  unfold first_day_of_week at hr hw1 hw7
  unfold weekday at hr hw1 hw7
  split at hr <;> rename_i hcase <;> omega

theorem grid_dates_get (y m i : Nat) (h : i < 42) :
    (grid_dates y m).get? i = some (nextIter i (grid_start y m)) := by
  unfold grid_dates day_cell_count
  rw [List.get?_map, List.get?_range (by omega)]
  rfl

/-- C5: for every displayed year/month, `set_date` fills exactly 42 day
cells with 42 consecutive calendar days in row-major order; the first
cell is `(firstWeekday - 1)` days before the first of the month, where
`firstWeekday` is the ISO weekday of the first of the month (Monday = 1,
a native Sunday 0 remapped to 7); hence the first cell is the Monday on
or before the first of the month; and for February 2024 (which starts on
a Thursday) the first cell is 2024-01-29. -/
theorem set_date_grid_layout (y m : Nat) (hm1 : 1 ≤ m) (hm2 : m ≤ 12)
    (hy : 2 ≤ y) :
    (grid_dates y m).length = 42 ∧
    (∀ i, i + 1 < 42 → (grid_dates y m).get? (i + 1) =
      ((grid_dates y m).get? i).map get_next_day) ∧
    (grid_dates y m).get? 0 =
      some (prevIter (first_day_of_week y m - 1) ⟨y, m, 1⟩) ∧
    rataDie (grid_start y m) + (first_day_of_week y m - 1) = rataDie ⟨y, m, 1⟩ ∧
    first_day_of_week y m ≤ 7 ∧
    weekday (grid_start y m) = 1 ∧
    weekday ⟨2024, 2, 1⟩ = 4 ∧
    grid_start 2024 2 = ⟨2024, 1, 29⟩ := by
  obtain ⟨hv, hy1, hr, hfirst⟩ := grid_start_spec y m hm1 hm2 hy
  refine ⟨by simp [grid_dates, day_cell_count], ?_, ?_, hr,
    (first_day_of_week_bounds y m).2, weekday_grid_start y m hm1 hm2 hy,
    by decide, by decide⟩
  · intro i hi
    rw [grid_dates_get _ _ _ (by omega), grid_dates_get _ _ _ (by omega)]
    simp [nextIter_succ_out]
  · rw [grid_dates_get _ _ _ (by omega), hfirst]
    rfl

theorem set_date_grid_layout_witness :
    (grid_dates 2024 2).length = 42 ∧
    (grid_dates 2024 2).get? 0 =
      some (prevIter (first_day_of_week 2024 2 - 1) ⟨2024, 2, 1⟩) :=
  ⟨(set_date_grid_layout 2024 2 (by norm_num) (by norm_num) (by norm_num)).1,
   (set_date_grid_layout 2024 2 (by norm_num) (by norm_num) (by norm_num)).2.2.1⟩

/-! ### The format codec: `time_to_string` and `string_to_time` -/

/-- The six format token characters `d m Y H i s`. -/
def isTok (c : Char) : Bool :=
  c = 'd' || c = 'm' || c = 'Y' || c = 'H' || c = 'i' || c = 's'

/-- Decimal digit character (the digits of a JS number-to-string). -/
def digitChar (d : Nat) : Char :=
  match d with
  | 0 => '0' | 1 => '1' | 2 => '2' | 3 => '3' | 4 => '4'
  | 5 => '5' | 6 => '6' | 7 => '7' | 8 => '8' | _ => '9'

/-- Decimal rendering with explicit fuel (structural, so that it
evaluates in the kernel); the fuel always exceeds the number. -/
def natStrAux : Nat → Nat → List Char
  | 0, _ => []
  | fuel + 1, n =>
    if n < 10 then [digitChar n]
    else natStrAux fuel (n / 10) ++ [digitChar (n % 10)]

/-- Decimal rendering of a number, as JS string conversion produces. -/
def natStr (n : Nat) : List Char := natStrAux (n + 1) n

theorem natStrAux_fuel (n : Nat) : ∀ f1 f2 : Nat, n < f1 → n < f2 →
    natStrAux f1 n = natStrAux f2 n := by
  induction n using Nat.strong_induction_on with
  | _ n ih =>
    intro f1 f2 h1 h2
    match f1, f2 with
    | g1 + 1, g2 + 1 =>
      unfold natStrAux
      by_cases hn : n < 10
      · rw [if_pos hn, if_pos hn]
      · rw [if_neg hn, if_neg hn,
          ih (n / 10) (Nat.div_lt_self (by omega) (by omega)) g1 g2
            (by have := Nat.div_lt_self (show 0 < n by omega) (show 1 < 10 by omega); omega)
            (by have := Nat.div_lt_self (show 0 < n by omega) (show 1 < 10 by omega); omega)]

theorem natStr_unfold (n : Nat) :
    natStr n = if n < 10 then [digitChar n]
      else natStr (n / 10) ++ [digitChar (n % 10)] := by
  show natStrAux (n + 1) n = _
  unfold natStrAux
  by_cases hn : n < 10
  · rw [if_pos hn, if_pos hn]
  · rw [if_neg hn, if_neg hn,
      natStrAux_fuel (n / 10) n (n / 10 + 1)
        (by have := Nat.div_lt_self (show 0 < n by omega) (show 1 < 10 by omega); omega)
        (by omega)]
    rfl

/-- The two-digit zero padding of `time_to_string`
(`if (aux.length == 1) aux = "0" + aux`). -/
def pad2 (n : Nat) : List Char :=
  if (natStr n).length = 1 then '0' :: natStr n else natStr n

/-- JS `String.replace` with a plain single-character pattern: replaces
only the first occurrence. -/
def replaceFirst : List Char → Char → List Char → List Char
  | [], _, _ => []
  | c :: cs, tk, r => if c = tk then r ++ cs else c :: replaceFirst cs tk r

/-- `SimpleCalendar.time_to_string`: substitutes the first occurrence of
each token character, in source order `d, m, H, i, s` zero-padded to two
digits and `Y` rendered unpadded. -/
def time_to_string (time : Option CivilDate) (format : List Char) : List Char :=
  match time with
  | none => []
  | some t =>
    let s1 := replaceFirst format 'd' (pad2 t.d)
    let s2 := replaceFirst s1 'm' (pad2 t.m)
    let s3 := replaceFirst s2 'Y' (natStr t.y)
    let s4 := replaceFirst s3 'H' (pad2 t.hh)
    let s5 := replaceFirst s4 'i' (pad2 t.mi)
    replaceFirst s5 's' (pad2 t.ss)

/-- One element of the regular expression that `string_to_time` derives
from the format: a literal character or a digit capture group. -/
inductive Elem where
  | lit (c : Char)
  | grp (lo hi : Nat)
deriving DecidableEq, Repr

/-- Capture group for a token: `Y` → `([0-9]{4})`, the others →
`([0-9]{1,2})`. -/
def grpFor (c : Char) : Elem := if c = 'Y' then .grp 4 4 else .grp 1 2

/-- The pattern built by `string_to_time`: the first occurrence of each
token character becomes its capture group, every other character is a
literal (the source escapes `.` and `/`, so they match literally). -/
def compileFormat : List Char → List Char → List Elem
  | [], _ => []
  | c :: cs, seen =>
    if isTok c && !(seen.contains c) then grpFor c :: compileFormat cs (c :: seen)
    else .lit c :: compileFormat cs seen

/-- Characters `0`-`9`. -/
def isDigitCh (c : Char) : Bool := '0' ≤ c && c ≤ '9'

/-- Anchored matching of the element language with the greedy,
backtracking semantics of the JS `RegExp`: a group tries its longer
width first; captured substrings are returned in group order. -/
def reMatch : List Elem → List Char → Option (List (List Char))
  | [], s => if s.isEmpty then some [] else none
  | .lit c :: es, s =>
    match s with
    | [] => none
    | x :: xs => if x = c then reMatch es xs else none
  | .grp lo hi :: es, s =>
    match (if hi ≤ s.length && (s.take hi).all isDigitCh then
        (reMatch es (s.drop hi)).map (fun caps => s.take hi :: caps)
      else none) with
    | some r => some r
    | none =>
      if lo < hi then
        (if lo ≤ s.length && (s.take lo).all isDigitCh then
          (reMatch es (s.drop lo)).map (fun caps => s.take lo :: caps)
        else none)
      else none

/-- Numeric value of a digit character. -/
def charDigit (c : Char) : Nat := c.toNat - 48

/-- Decimal value of a digit string (JS numeric coercion of a capture). -/
def str_nat (s : List Char) : Nat :=
  s.foldl (fun a c => 10 * a + charDigit c) 0

/-- JS numeric coercion of a capture: `none` models `NaN` (an absent
capture, i.e. `undefined`); a captured substring is always a nonempty
digit string and coerces to its decimal value. -/
def jsNum : Option (List Char) → Option Nat
  | none => none
  | some s => if s ≠ [] && s.all isDigitCh then some (str_nat s) else none

/-- `SimpleCalendar.validate_date` applied to the captured strings:
`isNaN` rejects an absent capture, the month must lie in 1..12, and the
day is bounded by `new Date(year, month, 0).getDate()`, the length of
that month in that year. -/
def validate_date (day month year : Option (List Char)) : Bool :=
  match jsNum day, jsNum month, jsNum year with
  | some dv, some mv, some yv =>
    if mv < 1 || 12 < mv then false
    else decide (1 ≤ dv ∧ dv ≤ daysInMonth yv mv)
  | _, _, _ => false

/-- `String.indexOf` on a character: the position of the first
occurrence; `none` models the `-1` result. -/
def idxOf? (c : Char) : List Char → Option Nat
  | [] => none
  | x :: xs => if x = c then some 0 else (idxOf? c xs).map (· + 1)

/-- The decoding stage of `SimpleCalendar.string_to_time`, applied to the
captured substrings (`units`).  `now` stands for the `new Date()` base
value, whose time-of-day the source immediately zeroes.  Captures are
assigned to fields by the position of the token letters in the format
(`order`), the date fields are written in the order month-to-January,
year, day, month of the source (modelled by the same `set` operations
with JS day-overflow normalization), and the time fields are validated
and defaulted as in the source. -/
def decode_units (now : Ymd) (format : List Char)
    (units : List (List Char)) : Option CivilDate :=
    let ord := format.filter isTok
    let iY := idxOf? 'Y' ord
    let iM := idxOf? 'm' ord
    let iD := idxOf? 'd' ord
    let iH := idxOf? 'H' ord
    let iI := idxOf? 'i' ord
    let iS := idxOf? 's' ord
    let uY := iY.bind (fun i => units.get? i)
    let uM := iM.bind (fun i => units.get? i)
    let uD := iD.bind (fun i => units.get? i)
    let uH := iH.bind (fun i => units.get? i)
    let uI := iI.bind (fun i => units.get? i)
    let uS := iS.bind (fun i => units.get? i)
    let date_ok := iY.isSome && iM.isSome && iD.isSome
    let time_ok := iH.isSome && iI.isSome
    if !date_ok && !time_ok then none
    else
      let dtDate : Option Ymd :=
        if date_ok then
          if validate_date uD uM uY then
            let dt1 := setMonth now 0
            let dt2 := setFullYear dt1 ((jsNum uY).getD 0)
            let dt3 := setDate dt2 ((jsNum uD).getD 0)
            some (setMonth dt3 ((jsNum uM).getD 0 - 1))
          else none
        else some now
      match dtDate with
      | none => none
      | some dt =>
        let hmPart : Option (Nat × Nat) :=
          if time_ok then
            match jsNum uH, jsNum uI with
            | some hv, some iv =>
              if 23 < hv then none
              else if 59 < iv then none
              else some (hv, iv)
            | _, _ => none
          else some (0, 0)
        match hmPart with
        | none => none
        | some hv =>
          let sPart : Option Nat :=
            if iS.isSome then
              match jsNum uS with
              | some sv => if 59 < sv then none else some sv
              | none => none
            else some 0
          match sPart with
          | none => none
          | some sv => some ⟨dt.y, dt.m, dt.d, hv.1, hv.2, sv⟩

/-- `SimpleCalendar.string_to_time`: build the pattern from the format,
match it against the input (`null` on no match), and decode the captured
substrings; `none` is the `null` result. -/
def string_to_time (now : Ymd) (str format : List Char) : Option CivilDate :=
  match reMatch (compileFormat format []) str with
  | none => none
  | some units => decode_units now format units

/-! ### Digit-string lemmas -/

theorem isDigitCh_digitChar (k : Nat) : isDigitCh (digitChar k) = true := by
  unfold digitChar
  split <;> decide

theorem charDigit_digitChar (k : Nat) (h : k < 10) :
    charDigit (digitChar k) = k := by
  interval_cases k <;> decide

theorem natStr_ne_nil (n : Nat) : natStr n ≠ [] := by
  rw [natStr_unfold]
  split <;> simp

theorem natStr_all_digit (n : Nat) : (natStr n).all isDigitCh = true := by
  induction n using Nat.strong_induction_on with
  | _ n ih =>
    rw [natStr_unfold]
    split
    · simp [isDigitCh_digitChar]
    · rename_i h
      simp only [List.all_append, Bool.and_eq_true]
      exact ⟨ih (n / 10) (Nat.div_lt_self (by omega) (by omega)),
        by simp [isDigitCh_digitChar]⟩

theorem str_nat_append_one (a : List Char) (c : Char) :
    str_nat (a ++ [c]) = 10 * str_nat a + charDigit c := by
  unfold str_nat
  rw [List.foldl_append]
  rfl

theorem str_nat_natStr (n : Nat) : str_nat (natStr n) = n := by
  induction n using Nat.strong_induction_on with
  | _ n ih =>
    rw [natStr_unfold]
    split
    · rename_i h
      simp [str_nat, charDigit_digitChar n h]
    · rename_i h
      rw [str_nat_append_one, ih (n / 10) (Nat.div_lt_self (by omega) (by omega)),
        charDigit_digitChar (n % 10) (by omega)]
      omega

theorem natStr_len_1 (n : Nat) (h : n < 10) : (natStr n).length = 1 := by
  rw [natStr_unfold, if_pos h]
  rfl

theorem natStr_len_2 (n : Nat) (h1 : 10 ≤ n) (h2 : n < 100) :
    (natStr n).length = 2 := by
  rw [natStr_unfold, if_neg (by omega), List.length_append,
    natStr_len_1 (n / 10) (by omega)]
  rfl

theorem natStr_len_3 (n : Nat) (h1 : 100 ≤ n) (h2 : n < 1000) :
    (natStr n).length = 3 := by
  rw [natStr_unfold, if_neg (by omega), List.length_append,
    natStr_len_2 (n / 10) (by omega) (by omega)]
  rfl

theorem natStr_len_4 (n : Nat) (h1 : 1000 ≤ n) (h2 : n < 10000) :
    (natStr n).length = 4 := by
  rw [natStr_unfold, if_neg (by omega), List.length_append,
    natStr_len_3 (n / 10) (by omega) (by omega)]
  rfl

theorem pad2_len (n : Nat) (h : n < 100) : (pad2 n).length = 2 := by
  unfold pad2
  by_cases h1 : n < 10
  · rw [if_pos (natStr_len_1 n h1)]
    simp [natStr_len_1 n h1]
  · have h2 := natStr_len_2 n (by omega) h
    rw [if_neg (by omega)]
    exact h2

theorem pad2_all_digit (n : Nat) : (pad2 n).all isDigitCh = true := by
  unfold pad2
  split
  · simp only [List.all_cons, Bool.and_eq_true]
    exact ⟨by decide, natStr_all_digit n⟩
  · exact natStr_all_digit n

theorem pad2_ne_nil (n : Nat) : pad2 n ≠ [] := by
  unfold pad2
  split
  · simp
  · exact natStr_ne_nil n

theorem str_nat_pad2 (n : Nat) : str_nat (pad2 n) = n := by
  unfold pad2
  split
  · show str_nat ('0' :: natStr n) = n
    unfold str_nat
    simp only [List.foldl_cons]
    have h0 : (10 * 0 + charDigit '0') = 0 := by decide
    rw [h0]
    exact str_nat_natStr n
  · exact str_nat_natStr n

theorem jsNum_pad2 (n : Nat) : jsNum (some (pad2 n)) = some n := by
  simp [jsNum, pad2_ne_nil n, pad2_all_digit n, str_nat_pad2 n]

theorem jsNum_natStr (n : Nat) : jsNum (some (natStr n)) = some n := by
  simp [jsNum, natStr_ne_nil n, natStr_all_digit n, str_nat_natStr n]

theorem not_tok_of_digit (c : Char) (h : isDigitCh c = true) : isTok c = false := by
  have hne : ∀ tk : Char, isDigitCh tk = false → c ≠ tk := by
    intro tk htk heq
    rw [heq] at h
    rw [h] at htk
    cases htk
  unfold isTok
  rw [decide_eq_false (hne 'd' (by decide)), decide_eq_false (hne 'm' (by decide)),
    decide_eq_false (hne 'Y' (by decide)), decide_eq_false (hne 'H' (by decide)),
    decide_eq_false (hne 'i' (by decide)), decide_eq_false (hne 's' (by decide))]
  rfl

/-! ### `time_to_string` as a pointwise substitution -/

/-- Pointwise substitution map of a (token, replacement) list. -/
def multiSubst : List (Char × List Char) → Char → List Char
  | [], c => [c]
  | p :: ps, c => if c = p.1 then p.2 else multiSubst ps c

/-- The token/replacement pairs of `time_to_string`, in source order. -/
def tokenSubsts (t : CivilDate) : List (Char × List Char) :=
  [('d', pad2 t.d), ('m', pad2 t.m), ('Y', natStr t.y),
   ('H', pad2 t.hh), ('i', pad2 t.mi), ('s', pad2 t.ss)]

theorem time_to_string_eq_foldl (t : CivilDate) (f : List Char) :
    time_to_string (some t) f =
      (tokenSubsts t).foldl (fun s p => replaceFirst s p.1 p.2) f := rfl

theorem flatMap_id_of_not_mem (l : List Char) (tk : Char) (r : List Char)
    (h : tk ∉ l) :
    l.flatMap (fun c => if c = tk then r else [c]) = l := by
  induction l with
  | nil => rfl
  | cons c cs ih =>
    rw [List.flatMap_cons, if_neg (by rintro rfl; exact h (List.mem_cons_self _ _)),
      ih (fun hm => h (List.mem_cons_of_mem _ hm))]
    rfl

theorem replaceFirst_eq_flatMap (f : List Char) (tk : Char) (r : List Char)
    (h : f.count tk = 1) :
    replaceFirst f tk r = f.flatMap (fun c => if c = tk then r else [c]) := by
  induction f with
  | nil => rfl
  | cons c cs ih =>
    unfold replaceFirst
    by_cases hc : c = tk
    · subst hc
      rw [List.count_cons_self] at h
      have h0 : c ∉ cs := by
        rw [← List.count_eq_zero]
        omega
      rw [if_pos rfl, List.flatMap_cons, if_pos rfl, flatMap_id_of_not_mem cs c r h0]
    · rw [List.count_cons_of_ne (Ne.symm hc)] at h
      rw [if_neg hc, List.flatMap_cons, if_neg hc, ih h]
      rfl

theorem count_flatMap_subst (f : List Char) (tk tk2 : Char) (r : List Char)
    (hne : tk2 ≠ tk) (hr : tk2 ∉ r) :
    (f.flatMap (fun c => if c = tk then r else [c])).count tk2 = f.count tk2 := by
  induction f with
  | nil => rfl
  | cons c cs ih =>
    rw [List.flatMap_cons, List.count_append, ih]
    by_cases hc : c = tk
    · subst hc
      rw [if_pos rfl, List.count_eq_zero.mpr hr, List.count_cons_of_ne hne]
      omega
    · rw [if_neg hc]
      by_cases h2 : tk2 = c
      · subst h2
        rw [List.count_cons_self, List.count_cons_self, List.count_nil]
        omega
      · rw [List.count_cons_of_ne h2, List.count_cons_of_ne h2, List.count_nil]
        omega

theorem multiSubst_id (ps : List (Char × List Char)) (c : Char)
    (h : ∀ p ∈ ps, c ≠ p.1) : multiSubst ps c = [c] := by
  induction ps with
  | nil => rfl
  | cons p ps ih =>
    unfold multiSubst
    rw [if_neg (h p (List.mem_cons_self _ _))]
    exact ih (fun q hq => h q (List.mem_cons_of_mem _ hq))

theorem flatMap_multiSubst_id (l : List Char) (ps : List (Char × List Char))
    (h : ∀ c ∈ l, ∀ p ∈ ps, c ≠ p.1) : l.flatMap (multiSubst ps) = l := by
  induction l with
  | nil => rfl
  | cons c cs ih =>
    rw [List.flatMap_cons, multiSubst_id ps c (h c (List.mem_cons_self _ _)),
      ih (fun x hx => h x (List.mem_cons_of_mem _ hx))]
    rfl

theorem foldl_replaceFirst_eq_flatMap (ps : List (Char × List Char))
    (f : List Char)
    (hcount : ∀ p ∈ ps, f.count p.1 = 1)
    (hdist : (ps.map Prod.fst).Nodup)
    (hrep : ∀ p ∈ ps, ∀ q ∈ ps, ∀ c ∈ p.2, c ≠ q.1) :
    ps.foldl (fun s p => replaceFirst s p.1 p.2) f = f.flatMap (multiSubst ps) := by
  induction ps generalizing f with
  | nil =>
    rw [List.foldl_nil]
    exact (List.flatMap_singleton' f).symm
  | cons p ps ih =>
    rw [List.map_cons, List.nodup_cons] at hdist
    obtain ⟨hp1, hdist'⟩ := hdist
    rw [List.foldl_cons,
      replaceFirst_eq_flatMap f p.1 p.2 (hcount p (List.mem_cons_self _ _))]
    rw [ih _ ?_ hdist'
      (fun a ha b hb => hrep a (List.mem_cons_of_mem _ ha) b (List.mem_cons_of_mem _ hb))]
    · rw [List.flatMap_assoc]
      congr 1
      funext c
      show (if c = p.1 then p.2 else [c]).flatMap (multiSubst ps) =
        multiSubst (p :: ps) c
      have hmc : multiSubst (p :: ps) c =
          if c = p.1 then p.2 else multiSubst ps c := rfl
      rw [hmc]
      by_cases hc : c = p.1
      · rw [if_pos hc, if_pos hc]
        exact flatMap_multiSubst_id p.2 ps
          (fun x hx q hq => hrep p (List.mem_cons_self _ _) q (List.mem_cons_of_mem _ hq) x hx)
      · rw [if_neg hc, if_neg hc, List.flatMap_cons]
        simp
    · intro q hq
      rw [count_flatMap_subst]
      · exact hcount q (List.mem_cons_of_mem _ hq)
      · intro he
        exact hp1 (he ▸ List.mem_map_of_mem Prod.fst hq)
      · intro hmem
        exact hrep p (List.mem_cons_self _ _) q (List.mem_cons_of_mem _ hq) q.1 hmem rfl

theorem time_to_string_eq_flatMap (t : CivilDate) (f : List Char)
    (hcd : f.count 'd' = 1) (hcm : f.count 'm' = 1) (hcY : f.count 'Y' = 1)
    (hcH : f.count 'H' = 1) (hci : f.count 'i' = 1) (hcs : f.count 's' = 1) :
    time_to_string (some t) f = f.flatMap (multiSubst (tokenSubsts t)) := by
  rw [time_to_string_eq_foldl]
  apply foldl_replaceFirst_eq_flatMap
  · intro p hp
    unfold tokenSubsts at hp
    simp only [List.mem_cons, List.not_mem_nil, or_false] at hp
    rcases hp with rfl|rfl|rfl|rfl|rfl|rfl <;> assumption
  · show (['d', 'm', 'Y', 'H', 'i', 's'] : List Char).Nodup
    decide
  · intro p hp q hq c hc
    have hdig : isDigitCh c = true := by
      unfold tokenSubsts at hp
      simp only [List.mem_cons, List.not_mem_nil, or_false] at hp
      rcases hp with rfl|rfl|rfl|rfl|rfl|rfl <;>
        simp only at hc <;>
        first
        | exact List.all_eq_true.mp (pad2_all_digit _) c hc
        | exact List.all_eq_true.mp (natStr_all_digit _) c hc
    have htokq : isTok q.1 = true := by
      unfold tokenSubsts at hq
      simp only [List.mem_cons, List.not_mem_nil, or_false] at hq
      rcases hq with rfl|rfl|rfl|rfl|rfl|rfl <;> rfl
    intro heq
    rw [heq] at hdig
    rw [not_tok_of_digit q.1 hdig] at htokq
    cases htokq

/-! ### The derived pattern matches the rendered string -/

theorem compileFormat_eq_map (f : List Char) (seen : List Char)
    (hseen : ∀ c ∈ seen, c ∉ f)
    (hcount : ∀ tk, isTok tk = true → f.count tk ≤ 1) :
    compileFormat f seen =
      f.map (fun c => if isTok c then grpFor c else .lit c) := by
  induction f generalizing seen with
  | nil => rfl
  | cons c cs ih =>
    unfold compileFormat
    rw [List.map_cons]
    by_cases htok : isTok c
    · have hns : seen.contains c = false := by
        by_contra hcon
        rw [Bool.not_eq_false] at hcon
        exact hseen c (by simpa using hcon) (List.mem_cons_self _ _)
      rw [if_pos (by rw [htok, hns]; rfl), if_pos htok]
      congr 1
      apply ih (c :: seen)
      · intro x hx
        rcases List.mem_cons.mp hx with rfl | hx2
        · have hc1 := hcount x htok
          rw [List.count_cons_self] at hc1
          rw [← List.count_eq_zero]
          omega
        · intro hmem
          exact hseen x hx2 (List.mem_cons_of_mem _ hmem)
      · intro tk htk
        have := hcount tk htk
        rw [List.count_cons] at this
        omega
    · rw [if_neg (by rw [Bool.eq_false_iff.mpr htok]; simp), if_neg htok]
      congr 1
      apply ih seen
      · intro x hx hmem
        exact hseen x hx (List.mem_cons_of_mem _ hmem)
      · intro tk htk
        have := hcount tk htk
        rw [List.count_cons] at this
        omega

theorem multiSubst_lit (t : CivilDate) (c : Char) (htok : isTok c = false) :
    multiSubst (tokenSubsts t) c = [c] := by
  apply multiSubst_id
  intro p hp
  unfold tokenSubsts at hp
  simp only [List.mem_cons, List.not_mem_nil, or_false] at hp
  unfold isTok at htok
  rcases hp with rfl|rfl|rfl|rfl|rfl|rfl <;> simp_all

theorem multiSubst_tok (t : CivilDate) (c : Char) (htok : isTok c = true)
    (hd : t.d < 100) (hm : t.m < 100) (hhh : t.hh < 100) (hmi : t.mi < 100)
    (hss : t.ss < 100) (hy1 : 1000 ≤ t.y) (hy2 : t.y < 10000) :
    (multiSubst (tokenSubsts t) c).all isDigitCh = true ∧
    (multiSubst (tokenSubsts t) c).length = (if c = 'Y' then 4 else 2) := by
  unfold isTok at htok
  simp only [Bool.or_eq_true, decide_eq_true_eq] at htok
  rcases htok with (((((rfl | rfl) | rfl) | rfl) | rfl) | rfl)
  · exact ⟨pad2_all_digit t.d, by rw [if_neg (by decide)]; exact pad2_len t.d hd⟩
  · exact ⟨pad2_all_digit t.m, by rw [if_neg (by decide)]; exact pad2_len t.m hm⟩
  · exact ⟨natStr_all_digit t.y, by rw [if_pos rfl]; exact natStr_len_4 t.y hy1 hy2⟩
  · exact ⟨pad2_all_digit t.hh, by rw [if_neg (by decide)]; exact pad2_len t.hh hhh⟩
  · exact ⟨pad2_all_digit t.mi, by rw [if_neg (by decide)]; exact pad2_len t.mi hmi⟩
  · exact ⟨pad2_all_digit t.ss, by rw [if_neg (by decide)]; exact pad2_len t.ss hss⟩

theorem reMatch_grp_exact (lo hi : Nat) (es : List Elem) (chunk rest : List Char)
    (caps : List (List Char))
    (hlen : chunk.length = hi) (hdig : chunk.all isDigitCh = true)
    (hrec : reMatch es rest = some caps) :
    reMatch (.grp lo hi :: es) (chunk ++ rest) = some (chunk :: caps) := by
  have htake : (chunk ++ rest).take hi = chunk := by
    rw [← hlen]
    exact List.take_left chunk rest
  have hdrop : (chunk ++ rest).drop hi = rest := by
    rw [← hlen]
    exact List.drop_left chunk rest
  have hle : hi ≤ (chunk ++ rest).length := by
    rw [List.length_append]
    omega
  unfold reMatch
  rw [htake, hdrop, if_pos (by simp [hdig, List.length_append]; omega), hrec]
  rfl

theorem reMatch_lit_cons (c : Char) (es : List Elem) (s : List Char) :
    reMatch (.lit c :: es) (c :: s) = reMatch es s := by
  show (if c = c then reMatch es s else none) = reMatch es s
  rw [if_pos rfl]

theorem reMatch_render (t : CivilDate) (f : List Char)
    (hd : t.d < 100) (hm : t.m < 100) (hhh : t.hh < 100) (hmi : t.mi < 100)
    (hss : t.ss < 100) (hy1 : 1000 ≤ t.y) (hy2 : t.y < 10000) :
    reMatch (f.map (fun c => if isTok c then grpFor c else .lit c))
        (f.flatMap (multiSubst (tokenSubsts t))) =
      some ((f.filter isTok).map (multiSubst (tokenSubsts t))) := by
  induction f with
  | nil => rfl
  | cons c cs ih =>
    rw [List.map_cons, List.flatMap_cons]
    by_cases htok : isTok c
    · obtain ⟨hdig, hlen⟩ := multiSubst_tok t c htok hd hm hhh hmi hss hy1 hy2
      rw [if_pos htok, List.filter_cons_of_pos htok, List.map_cons]
      by_cases hY : c = 'Y'
      · rw [if_pos hY] at hlen
        have hgrp : grpFor c = .grp 4 4 := by rw [grpFor, if_pos hY]
        rw [hgrp]
        exact reMatch_grp_exact 4 4 _ _ _ _ hlen hdig ih
      · rw [if_neg hY] at hlen
        have hgrp : grpFor c = .grp 1 2 := by rw [grpFor, if_neg hY]
        rw [hgrp]
        exact reMatch_grp_exact 1 2 _ _ _ _ hlen hdig ih
    · rw [if_neg htok, List.filter_cons_of_neg htok,
        multiSubst_lit t c (Bool.eq_false_iff.mpr htok),
        List.singleton_append, reMatch_lit_cons]
      exact ih

/-! ### Index and capture lookup -/

theorem idxOf?_mem_some (l : List Char) (c : Char) (h : c ∈ l) :
    ∃ i, idxOf? c l = some i ∧ l.get? i = some c := by
  induction l with
  | nil => cases h
  | cons a as ih =>
    unfold idxOf?
    by_cases hac : a = c
    · exact ⟨0, by rw [if_pos hac], by simp [hac]⟩
    · have hmem : c ∈ as := by
        rcases List.mem_cons.mp h with rfl | hx
        · exact absurd rfl hac
        · exact hx
      obtain ⟨i, hi, hgi⟩ := ih hmem
      exact ⟨i + 1, by rw [if_neg hac, hi]; rfl, by simpa using hgi⟩

theorem idx_unit (ord : List Char) (σ : Char → List Char) (c : Char)
    (h : c ∈ ord) :
    (idxOf? c ord).bind (fun i => (ord.map σ).get? i) = some (σ c) := by
  obtain ⟨i, hi, hgi⟩ := idxOf?_mem_some ord c h
  rw [hi]
  show (ord.map σ).get? i = some (σ c)
  rw [List.get?_map, hgi]
  rfl

theorem idxOf?_isSome (l : List Char) (c : Char) (h : c ∈ l) :
    (idxOf? c l).isSome = true := by
  obtain ⟨i, hi, _⟩ := idxOf?_mem_some l c h
  rw [hi]
  rfl

theorem mem_order_of_count (f : List Char) (c : Char) (htok : isTok c = true)
    (h : f.count c = 1) : c ∈ f.filter isTok := by
  have : (f.filter isTok).count c = 1 := by
    rw [List.count_filter htok]
    exact h
  exact List.count_pos_iff_mem.mp (by omega)

/-! ### Round-trip assembly -/

theorem daysInMonth_one (y : Nat) : daysInMonth y 1 = 31 := by
  unfold daysInMonth; norm_num

/-- The month-to-January, year, day, month assignment sequence of
`string_to_time` produces exactly the target date when the day is valid
for the target month. -/
theorem date_chain (now : Ymd) (hnow : now.d ≤ 31) (y m d : Nat)
    (hm1 : 1 ≤ m) (hm2 : m ≤ 12) (hd2 : d ≤ daysInMonth y m) :
    setMonth (setDate (setFullYear (setMonth now 0) y) d) (m - 1) = ⟨y, m, d⟩ := by
  have h1 : setMonth now 0 = ⟨now.y, 1, now.d⟩ := by
    show rollDay now.d (now.y + 0 / 12) (0 % 12 + 1) now.d = _
    rw [show (0 : Nat) / 12 = 0 from rfl, show (0 : Nat) % 12 + 1 = 1 from rfl,
      Nat.add_zero]
    exact rollDay_of_le _ _ _ _ (by rw [daysInMonth_one]; omega)
  rw [h1]
  have h2 : setFullYear ⟨now.y, 1, now.d⟩ y = ⟨y, 1, now.d⟩ := by
    show rollDay now.d y 1 now.d = _
    exact rollDay_of_le _ _ _ _ (by rw [daysInMonth_one]; omega)
  rw [h2]
  have h3 : setDate ⟨y, 1, now.d⟩ d = ⟨y, 1, d⟩ := by
    show rollDay d y 1 d = _
    exact rollDay_of_le _ _ _ _
      (by rw [daysInMonth_one]; have := daysInMonth_le y m; omega)
  rw [h3]
  show rollDay d (y + (m - 1) / 12) ((m - 1) % 12 + 1) d = _
  rw [show (m - 1) / 12 = 0 by omega, show (m - 1) % 12 + 1 = m by omega,
    Nat.add_zero]
  exact rollDay_of_le _ _ _ _ hd2

theorem validate_date_true (d m y : Nat) (hm1 : 1 ≤ m) (hm2 : m ≤ 12)
    (hd1 : 1 ≤ d) (hd2 : d ≤ daysInMonth y m) :
    validate_date (some (pad2 d)) (some (pad2 m)) (some (natStr y)) = true := by
  unfold validate_date
  rw [jsNum_pad2, jsNum_pad2, jsNum_natStr]
  show (if m < 1 || 12 < m then false
    else decide (1 ≤ d ∧ d ≤ daysInMonth y m)) = true
  rw [if_neg (by simp only [Bool.or_eq_true, decide_eq_true_eq]; omega)]
  exact decide_eq_true ⟨hd1, hd2⟩

/-- All six fields within their calendar ranges. -/
def validCivil (t : CivilDate) : Prop :=
  1 ≤ t.m ∧ t.m ≤ 12 ∧ 1 ≤ t.d ∧ t.d ≤ daysInMonth t.y t.m ∧
  t.hh ≤ 23 ∧ t.mi ≤ 59 ∧ t.ss ≤ 59

instance (t : CivilDate) : Decidable (validCivil t) := by
  unfold validCivil; infer_instance

/-- Characters on which the element-level model of the derived regex is
faithful as a literal: everything except the regex metacharacters that
the source leaves unescaped (it escapes only `.` and `/`, which are
therefore safe literals). -/
def simpleLit (c : Char) : Bool :=
  !(c = '\\' || c = '^' || c = '$' || c = '|' || c = '?' || c = '*' ||
    c = '+' || c = '(' || c = ')' || c = '[' || c = ']' ||
    c = '\x7b' || c = '\x7d')

theorem decode_units_round (t : CivilDate) (now : Ymd) (f : List Char)
    (hv : validCivil t) (hy1 : 1000 ≤ t.y) (hy2 : t.y ≤ 9999)
    (hnow : now.d ≤ 31)
    (hcd : f.count 'd' = 1) (hcm : f.count 'm' = 1) (hcY : f.count 'Y' = 1)
    (hcH : f.count 'H' = 1) (hci : f.count 'i' = 1) (hcs : f.count 's' = 1) :
    decode_units now f ((f.filter isTok).map (multiSubst (tokenSubsts t))) =
      some t := by
  obtain ⟨hv1, hv2, hv3, hv4, hv5, hv6, hv7⟩ := hv
  have hmY := mem_order_of_count f 'Y' rfl hcY
  have hmM := mem_order_of_count f 'm' rfl hcm
  have hmD := mem_order_of_count f 'd' rfl hcd
  have hmH := mem_order_of_count f 'H' rfl hcH
  have hmI := mem_order_of_count f 'i' rfl hci
  have hmS := mem_order_of_count f 's' rfl hcs
  have hsY : multiSubst (tokenSubsts t) 'Y' = natStr t.y := rfl
  have hsM : multiSubst (tokenSubsts t) 'm' = pad2 t.m := rfl
  have hsD : multiSubst (tokenSubsts t) 'd' = pad2 t.d := rfl
  have hsH : multiSubst (tokenSubsts t) 'H' = pad2 t.hh := rfl
  have hsI : multiSubst (tokenSubsts t) 'i' = pad2 t.mi := rfl
  have hsS : multiSubst (tokenSubsts t) 's' = pad2 t.ss := rfl
  have hval := validate_date_true t.d t.m t.y hv1 hv2 hv3 hv4
  have hchain := date_chain now hnow t.y t.m t.d hv1 hv2 hv4
  unfold decode_units
  simp only [idx_unit _ _ _ hmY, idx_unit _ _ _ hmM, idx_unit _ _ _ hmD,
    idx_unit _ _ _ hmH, idx_unit _ _ _ hmI, idx_unit _ _ _ hmS,
    idxOf?_isSome _ _ hmY, idxOf?_isSome _ _ hmM, idxOf?_isSome _ _ hmD,
    idxOf?_isSome _ _ hmH, idxOf?_isSome _ _ hmI, idxOf?_isSome _ _ hmS,
    hsY, hsM, hsD, hsH, hsI, hsS]
  simp only [Bool.and_self, Bool.and_true, Bool.true_and, Bool.not_true,
    Bool.false_and, Bool.and_false, if_false]
  simp only [hval, if_true, jsNum_pad2, jsNum_natStr, Option.getD_some, hchain]
  simp only [Nat.not_lt.mpr hv5, Nat.not_lt.mpr hv6, Nat.not_lt.mpr hv7,
    if_false, if_true, Option.isSome_some]
  cases t
  rfl

/-- C1 (amended): for every `CivilDate` whose fields are within their
calendar ranges and whose year has four digits, and every format in which
each of the six tokens occurs exactly once and all other characters are
literals on which the derived regex is faithful, parsing the
serialization returns the same date. -/
theorem string_to_time_time_to_string (t : CivilDate) (now : Ymd)
    (f : List Char)
    (hv : validCivil t) (hy1 : 1000 ≤ t.y) (hy2 : t.y ≤ 9999)
    (hnow : validYmd now)
    (hcd : f.count 'd' = 1) (hcm : f.count 'm' = 1) (hcY : f.count 'Y' = 1)
    (hcH : f.count 'H' = 1) (hci : f.count 'i' = 1) (hcs : f.count 's' = 1)
    (hlit : ∀ c ∈ f, simpleLit c = true) :
    string_to_time now (time_to_string (some t) f) f = some t := by
  obtain ⟨hv1, hv2, hv3, hv4, hv5, hv6, hv7⟩ := hv
  have hdim := daysInMonth_le t.y t.m
  rw [time_to_string_eq_flatMap t f hcd hcm hcY hcH hci hcs]
  unfold string_to_time
  rw [compileFormat_eq_map f [] (by intro c hc; cases hc) ?hc1,
    reMatch_render t f (by omega) (by omega) (by omega) (by omega) (by omega)
      hy1 (by omega)]
  case hc1 =>
    intro tk htk
    unfold isTok at htk
    simp only [Bool.or_eq_true, decide_eq_true_eq] at htk
    rcases htk with (((((rfl | rfl) | rfl) | rfl) | rfl) | rfl) <;> omega
  show decode_units now f ((f.filter isTok).map (multiSubst (tokenSubsts t))) =
    some t
  exact decode_units_round t now f
    ⟨hv1, hv2, hv3, hv4, hv5, hv6, hv7⟩ hy1 hy2
    (by have := daysInMonth_le now.y now.m; obtain ⟨_, _, _, h4⟩ := hnow; omega)
    hcd hcm hcY hcH hci hcs

theorem string_to_time_time_to_string_witness :
    string_to_time ⟨2025, 6, 15⟩
      (time_to_string (some ⟨2024, 2, 29, 10, 20, 30⟩) (("d.m.Y H:i:s").data))
      (("d.m.Y H:i:s").data) = some ⟨2024, 2, 29, 10, 20, 30⟩ :=
  string_to_time_time_to_string ⟨2024, 2, 29, 10, 20, 30⟩ ⟨2025, 6, 15⟩ _
    (by decide) (by norm_num) (by norm_num) (by decide)
    (by decide) (by decide) (by decide) (by decide) (by decide) (by decide)
    (by decide)

/-- C1 counterexample: the date 0005-01-01 00:00:00 has all six fields
within their calendar ranges and the format `Y-m-d H:i:s` contains every
token, yet parsing the serialization does not give the date back: the
year is serialized unpadded as `5` while the derived pattern demands four
digits, so the parse returns `null`. -/
theorem roundtrip_fails_for_small_year :
    validCivil ⟨5, 1, 1, 0, 0, 0⟩ ∧
    (("Y-m-d H:i:s").data).count 'd' = 1 ∧
    (("Y-m-d H:i:s").data).count 'm' = 1 ∧
    (("Y-m-d H:i:s").data).count 'Y' = 1 ∧
    (("Y-m-d H:i:s").data).count 'H' = 1 ∧
    (("Y-m-d H:i:s").data).count 'i' = 1 ∧
    (("Y-m-d H:i:s").data).count 's' = 1 ∧
    string_to_time ⟨2025, 6, 15⟩
      (time_to_string (some ⟨5, 1, 1, 0, 0, 0⟩) (("Y-m-d H:i:s").data))
      (("Y-m-d H:i:s").data) = none := by
  decide

/-! ### Date validation on the parse path (C4, C7) -/

theorem validate_date_bounds (dayc monthc yearc : Option (List Char))
    (h : validate_date dayc monthc yearc = true) :
    ∃ dv mv yv, jsNum dayc = some dv ∧ jsNum monthc = some mv ∧
      jsNum yearc = some yv ∧
      1 ≤ mv ∧ mv ≤ 12 ∧ 1 ≤ dv ∧ dv ≤ daysInMonth yv mv := by
  unfold validate_date at h
  split at h
  · rename_i dv mv yv hd hm hy
    split at h
    · cases h
    · rename_i hcond
      simp only [Bool.or_eq_true, decide_eq_true_eq, not_or] at hcond
      have hb := of_decide_eq_true h
      exact ⟨dv, mv, yv, hd, hm, hy, by omega, by omega, hb.1, hb.2⟩
  · cases h

theorem daysInMonth_feb_le (y : Nat) : daysInMonth y 2 ≤ 29 := by
  unfold daysInMonth
  rw [if_pos rfl]
  split <;> omega

/-- C4: with the tokens `d`, `m`, `Y` in the format, `string_to_time`
succeeds only with a month in 1..12 and a day between 1 and the
leap-year-aware length of that month; day 30 of February is rejected in
every (four-digit) year; Feb 29 is accepted for 2024 and rejected for
2023. -/
theorem string_to_time_validates_date :
    (∀ (now : Ymd) (f s : List Char) (r : CivilDate), validYmd now →
      'd' ∈ f → 'm' ∈ f → 'Y' ∈ f →
      string_to_time now s f = some r →
      1 ≤ r.m ∧ r.m ≤ 12 ∧ 1 ≤ r.d ∧ r.d ≤ daysInMonth r.y r.m) ∧
    (∀ (y : Nat) (now : Ymd), 1000 ≤ y → y ≤ 9999 →
      string_to_time now ((("30.02.").data) ++ natStr y) (("d.m.Y").data) =
        none) ∧
    (∀ now : Ymd, validYmd now →
      string_to_time now (("29.02.2024").data) (("d.m.Y").data) =
        some ⟨2024, 2, 29, 0, 0, 0⟩) ∧
    (∀ now : Ymd,
      string_to_time now (("29.02.2023").data) (("d.m.Y").data) = none) := by
  refine ⟨?_, ?_, ?_, ?_⟩
  · intro now f s r hnow hd hm hY h
    unfold string_to_time at h
    rcases hre : reMatch (compileFormat f []) s with _ | units
    · rw [hre] at h; cases h
    · rw [hre] at h
      have hdf : 'd' ∈ f.filter isTok := List.mem_filter.mpr ⟨hd, rfl⟩
      have hmf : 'm' ∈ f.filter isTok := List.mem_filter.mpr ⟨hm, rfl⟩
      have hYf : 'Y' ∈ f.filter isTok := List.mem_filter.mpr ⟨hY, rfl⟩
      unfold decode_units at h
      simp only [idxOf?_isSome _ _ hdf, idxOf?_isSome _ _ hmf,
        idxOf?_isSome _ _ hYf, Bool.and_self, Bool.true_and, Bool.and_true,
        Bool.not_true, Bool.false_and, Bool.and_false, if_true, if_false,
        Bool.false_eq_true] at h
      split at h
      · cases h
      · rename_i dt hdt
        split at hdt
        · rename_i hval
          obtain ⟨dv, mv, yv, hjd, hjm, hjy, hmv1, hmv2, hdv1, hdv2⟩ :=
            validate_date_bounds _ _ _ hval
          rw [hjy, hjd, hjm] at hdt
          simp only [Option.getD_some, Option.some.injEq] at hdt
          have hchain := date_chain now
            (by have := daysInMonth_le now.y now.m
                obtain ⟨_, _, _, h4⟩ := hnow; omega)
            yv mv dv hmv1 hmv2 hdv2
          rw [hchain] at hdt
          split at h
          · cases h
          · rename_i hv2 hhm
            split at h
            · cases h
            · rename_i sv hsv
              simp only [Option.some.injEq] at h
              rw [← h, ← hdt]
              exact ⟨hmv1, hmv2, hdv1, hdv2⟩
        · cases hdt
  · intro y now hy1 hy2
    have e1 : reMatch [Elem.grp 4 4] (natStr y ++ []) = some [natStr y] :=
      reMatch_grp_exact 4 4 [] (natStr y) [] []
        (natStr_len_4 y hy1 (by omega)) (natStr_all_digit y) rfl
    rw [List.append_nil] at e1
    have e2 : reMatch [Elem.lit '.', Elem.grp 4 4] ('.' :: natStr y) =
        some [natStr y] := by
      rw [reMatch_lit_cons]; exact e1
    have e3 : reMatch [Elem.grp 1 2, Elem.lit '.', Elem.grp 4 4]
        (['0', '2'] ++ ('.' :: natStr y)) = some [['0', '2'], natStr y] :=
      reMatch_grp_exact 1 2 _ ['0', '2'] _ _ (by decide) (by decide) e2
    have e4 : reMatch
        [Elem.lit '.', Elem.grp 1 2, Elem.lit '.', Elem.grp 4 4]
        ('.' :: (['0', '2'] ++ ('.' :: natStr y))) =
        some [['0', '2'], natStr y] := by
      rw [reMatch_lit_cons]; exact e3
    have e5 : reMatch
        [Elem.grp 1 2, Elem.lit '.', Elem.grp 1 2, Elem.lit '.', Elem.grp 4 4]
        (['3', '0'] ++ ('.' :: (['0', '2'] ++ ('.' :: natStr y)))) =
        some [['3', '0'], ['0', '2'], natStr y] :=
      reMatch_grp_exact 1 2 _ ['3', '0'] _ _ (by decide) (by decide) e4
    have hinput : (("30.02.").data) ++ natStr y =
        ['3', '0'] ++ ('.' :: (['0', '2'] ++ ('.' :: natStr y))) := rfl
    have hcf : compileFormat (("d.m.Y").data) [] =
        [Elem.grp 1 2, Elem.lit '.', Elem.grp 1 2, Elem.lit '.',
         Elem.grp 4 4] := rfl
    unfold string_to_time
    rw [hinput, hcf, e5]
    have hval : validate_date (some ['3', '0']) (some ['0', '2'])
        (some (natStr y)) = false := by
      unfold validate_date
      rw [jsNum_natStr]
      have h30 : jsNum (some ['3', '0']) = some 30 := rfl
      have h02 : jsNum (some ['0', '2']) = some 2 := rfl
      rw [h30, h02]
      show (if 2 < 1 || 12 < 2 then false
        else decide (1 ≤ 30 ∧ 30 ≤ daysInMonth y 2)) = false
      rw [if_neg (by decide)]
      apply decide_eq_false
      intro hcon
      have := daysInMonth_feb_le y
      omega
    show decode_units now (("d.m.Y").data) [['3', '0'], ['0', '2'], natStr y]
      = none
    unfold decode_units
    have hu1 : (idxOf? 'd' (List.filter isTok (("d.m.Y").data))).bind
        (fun i => ([['3', '0'], ['0', '2'], natStr y] :
          List (List Char)).get? i) = some ['3', '0'] := rfl
    have hu2 : (idxOf? 'm' (List.filter isTok (("d.m.Y").data))).bind
        (fun i => ([['3', '0'], ['0', '2'], natStr y] :
          List (List Char)).get? i) = some ['0', '2'] := rfl
    have hu3 : (idxOf? 'Y' (List.filter isTok (("d.m.Y").data))).bind
        (fun i => ([['3', '0'], ['0', '2'], natStr y] :
          List (List Char)).get? i) = some (natStr y) := rfl
    simp only [hu1, hu2, hu3, hval]
    rfl
  · intro now hnow
    obtain ⟨hn1, hn2, hn3, hn4⟩ := hnow
    have hd31 : now.d ≤ 31 := le_trans hn4 (daysInMonth_le now.y now.m)
    have hchain := date_chain now hd31 2024 2 29 (by omega) (by omega)
      (by decide)
    have hres : string_to_time now (("29.02.2024").data) (("d.m.Y").data) =
        some ⟨(setMonth (setDate (setFullYear (setMonth now 0) 2024) 29) (2 - 1)).y,
          (setMonth (setDate (setFullYear (setMonth now 0) 2024) 29) (2 - 1)).m,
          (setMonth (setDate (setFullYear (setMonth now 0) 2024) 29) (2 - 1)).d,
          0, 0, 0⟩ := rfl
    rw [hres, hchain]
  · intro now
    rfl

theorem string_to_time_validates_date_witness :
    string_to_time ⟨2025, 6, 15⟩ (("29.02.2024").data) (("d.m.Y").data) =
      some ⟨2024, 2, 29, 0, 0, 0⟩ :=
  string_to_time_validates_date.2.2.1 ⟨2025, 6, 15⟩ (by decide)

/-- C7 counterexample: the claimed distinguishable error kinds do not
exist in the code: for the out-of-range date `2024-13-01` and for the
non-matching text `abc` under format `Y-m-d`, `string_to_time` returns
the very same result (`null`), not two distinct outcomes. -/
theorem parse_failures_same_result :
    string_to_time ⟨2025, 6, 15⟩ (("2024-13-01").data) (("Y-m-d").data) =
      string_to_time ⟨2025, 6, 15⟩ (("abc").data) (("Y-m-d").data) ∧
    string_to_time ⟨2025, 6, 15⟩ (("2024-13-01").data) (("Y-m-d").data) =
      none :=
  ⟨rfl, rfl⟩

/-- C7 (amended): the two inputs fail at different internal stages —
`abc` already fails the derived pattern match, while `2024-13-01` matches
the pattern and then fails date validation — but the function signals
both failures with the same returned value `null`. -/
theorem parse_failure_kinds :
    reMatch (compileFormat (("Y-m-d").data) []) (("abc").data) = none ∧
    reMatch (compileFormat (("Y-m-d").data) []) (("2024-13-01").data) =
      some [("2024").data, ("13").data, ("01").data] ∧
    validate_date (some (("01").data)) (some (("13").data))
      (some (("2024").data)) = false ∧
    string_to_time ⟨2025, 6, 15⟩ (("abc").data) (("Y-m-d").data) = none ∧
    string_to_time ⟨2025, 6, 15⟩ (("2024-13-01").data) (("Y-m-d").data) =
      none :=
  ⟨rfl, rfl, rfl, rfl, rfl⟩

/-! ### The blur handler's field-value effect (C6) -/

/-- ASCII whitespace, modelling JS `String.trim`. -/
def isSpaceCh (c : Char) : Bool :=
  c = ' ' || c = '\t' || c = '\n' || c = '\r'

/-- JS `value.trim()`. -/
def trimChars (s : List Char) : List Char :=
  ((s.dropWhile isSpaceCh).reverse.dropWhile isSpaceCh).reverse

/-- The field-value effect of the `blur` handler that `init_field`
installs: the trimmed current text is re-parsed against the field's
configured format and the value is cleared when the parse returns
`null`, otherwise left unchanged. -/
def blur_revalidate (now : Ymd) (format value : List Char) : List Char :=
  if string_to_time now (trimChars value) format = none then [] else value

/-- C6: on the field's blur the trimmed text is re-validated against the
configured format — a failed parse clears the field's value and a
successful parse leaves it unchanged; under format `d.m.Y` the text
`29.02.2024` is retained while `31.02.2024` is cleared. -/
theorem blur_revalidates_field_value :
    (∀ (now : Ymd) (format value : List Char),
      string_to_time now (trimChars value) format = none →
      blur_revalidate now format value = []) ∧
    (∀ (now : Ymd) (format value : List Char) (r : CivilDate),
      string_to_time now (trimChars value) format = some r →
      blur_revalidate now format value = value) ∧
    (∀ now : Ymd,
      blur_revalidate now (("d.m.Y").data) (("29.02.2024").data) =
        (("29.02.2024").data)) ∧
    (∀ now : Ymd,
      blur_revalidate now (("d.m.Y").data) (("31.02.2024").data) = []) := by
  refine ⟨?_, ?_, ?_, ?_⟩
  · intro now format value h
    unfold blur_revalidate
    rw [if_pos h]
  · intro now format value r h
    unfold blur_revalidate
    rw [h]
    simp
  · intro now
    rfl
  · intro now
    rfl

theorem blur_revalidates_field_value_witness :
    blur_revalidate ⟨2025, 6, 15⟩ (("d.m.Y").data) (("29.02.2024").data) =
      (("29.02.2024").data) :=
  blur_revalidates_field_value.2.1 ⟨2025, 6, 15⟩ (("d.m.Y").data)
    (("29.02.2024").data)
    ⟨(setMonth (setDate (setFullYear (setMonth ⟨2025, 6, 15⟩ 0) 2024) 29) (2 - 1)).y,
     (setMonth (setDate (setFullYear (setMonth ⟨2025, 6, 15⟩ 0) 2024) 29) (2 - 1)).m,
     (setMonth (setDate (setFullYear (setMonth ⟨2025, 6, 15⟩ 0) 2024) 29) (2 - 1)).d,
     0, 0, 0⟩ rfl

/-! ### Holidays (`is_holiday`, C9, C10) -/

/-- A JS `Date` value: a calendar date together with its local
time-of-day (hours, minutes, seconds, milliseconds). -/
structure JsDate where
  ymd : Ymd
  hh : Nat
  mi : Nat
  ss : Nat
  ms : Nat
deriving DecidableEq, Repr

/-- Milliseconds since local midnight. -/
def msOfDay (d : JsDate) : Nat :=
  ((d.hh * 60 + d.mi) * 60 + d.ss) * 1000 + d.ms

/-- `getTime()` up to the constant epoch-and-zone offset: the timestamp
linearization of a local date-time.  Two `Date`s of the same zone have
equal `getTime()` exactly when these values are equal. -/
def getTime (d : JsDate) : Nat := rataDie d.ymd * 86400000 + msOfDay d

/-- The per-entry copy-and-substitute step of `is_holiday`:
`var local = new Date(item); if (local.getFullYear() == 1970)
local.setFullYear(date.getFullYear())`.  `setFullYear` keeps the
time-of-day and normalizes the day as JS does. -/
def holiday_subst (dateYear : Nat) (item : JsDate) : JsDate :=
  if item.ymd.y = 1970 then { item with ymd := setFullYear item.ymd dateYear }
  else item

/-- `SimpleCalendar.is_holiday`: walks the configured holiday list with
`forEach`, remembering the index of the last entry whose (possibly
year-substituted) timestamp equals the grid date's timestamp
(`date.getTime() == local.getTime()`), and reports `idx != -1`. -/
def is_holiday (date : JsDate) (holidays : List JsDate) : Bool :=
  (holidays.foldl
    (fun (acc : Int × Nat) item =>
      ((if getTime date = getTime (holiday_subst date.ymd.y item)
        then (acc.2 : Int) else acc.1), acc.2 + 1))
    (-1, 0)).1 != -1

theorem is_holiday_fold (date : JsDate) (hs : List JsDate) :
    ∀ (a : Int) (k : Nat),
    ((hs.foldl
      (fun (acc : Int × Nat) item =>
        ((if getTime date = getTime (holiday_subst date.ymd.y item)
          then (acc.2 : Int) else acc.1), acc.2 + 1)) (a, k)).1 ≠ -1) ↔
    (a ≠ -1 ∨
      ∃ item ∈ hs, getTime date = getTime (holiday_subst date.ymd.y item)) := by
  induction hs with
  | nil =>
    intro a k
    simp
  | cons x xs ih =>
    intro a k
    rw [List.foldl_cons]
    by_cases hx : getTime date = getTime (holiday_subst date.ymd.y x)
    · rw [if_pos hx]
      rw [ih (k : Int) (k + 1)]
      constructor
      · intro hco
        exact Or.inr ⟨x, List.mem_cons_self _ _, hx⟩
      · intro hco
        left
        omega
    · rw [if_neg hx]
      rw [ih a (k + 1)]
      constructor
      · rintro (hco | ⟨it, hit, hmt⟩)
        · exact Or.inl hco
        · exact Or.inr ⟨it, List.mem_cons_of_mem _ hit, hmt⟩
      · rintro (hco | ⟨it, hit, hmt⟩)
        · exact Or.inl hco
        · rcases List.mem_cons.mp hit with rfl | hit2
          · exact absurd hmt hx
          · exact Or.inr ⟨it, hit2, hmt⟩

theorem is_holiday_iff (date : JsDate) (hs : List JsDate) :
    is_holiday date hs = true ↔
      ∃ item ∈ hs, getTime date = getTime (holiday_subst date.ymd.y item) := by
  unfold is_holiday
  rw [bne_iff_ne, is_holiday_fold date hs (-1) 0]
  simp

theorem msOfDay_subst (y0 : Nat) (it : JsDate) :
    msOfDay (holiday_subst y0 it) = msOfDay it := by
  unfold holiday_subst
  split <;> rfl

theorem grid_cell_valid (y m : Nat) (hm1 : 1 ≤ m) (hm2 : m ≤ 12) (hy : 2 ≤ y)
    (cell : Ymd) (hc : cell ∈ grid_dates y m) :
    validYmd cell ∧ 1 ≤ cell.y := by
  unfold grid_dates at hc
  rw [List.mem_map] at hc
  obtain ⟨i, hi, rfl⟩ := hc
  obtain ⟨hv, hy1, _, _⟩ := grid_start_spec y m hm1 hm2 hy
  obtain ⟨hv2, hy2, _⟩ := nextIter_spec i _ hv hy1
  exact ⟨hv2, hy2⟩

/-- C10 (implicit): an entry marks a grid cell only when its timestamp
after the year-1970 substitution equals exactly the local midnight of
the cell's day, because `is_holiday` compares full millisecond
timestamps while the grid's cell dates are generated at local midnight;
consequently a holiday `Date` with a nonzero time-of-day never marks any
grid cell. -/
theorem holiday_marks_only_at_midnight :
    (∀ (cell : Ymd) (hs : List JsDate),
      is_holiday ⟨cell, 0, 0, 0, 0⟩ hs = true →
      ∃ item ∈ hs,
        getTime (holiday_subst cell.y item) = rataDie cell * 86400000) ∧
    (∀ (y m : Nat), 1 ≤ m → m ≤ 12 → 2 ≤ y →
      ∀ cell ∈ grid_dates y m, ∀ hs : List JsDate,
      (∀ it ∈ hs, 0 < msOfDay it ∧ msOfDay it < 86400000) →
      is_holiday ⟨cell, 0, 0, 0, 0⟩ hs = false) := by
  constructor
  · intro cell hs h
    obtain ⟨item, hmem, heq⟩ := (is_holiday_iff _ _).mp h
    refine ⟨item, hmem, ?_⟩
    have : getTime ⟨cell, 0, 0, 0, 0⟩ = rataDie cell * 86400000 := by
      unfold getTime msOfDay
      simp
    rw [← heq, this]
  · intro y m hm1 hm2 hy cell hc hs hms
    by_contra hcon
    rw [Bool.not_eq_false] at hcon
    obtain ⟨item, hmem, heq⟩ := (is_holiday_iff _ _).mp hcon
    obtain ⟨hms1, hms2⟩ := hms item hmem
    unfold getTime at heq
    rw [msOfDay_subst] at heq
    have hcellms : msOfDay ⟨cell, 0, 0, 0, 0⟩ = 0 := by
      unfold msOfDay
      simp
    rw [hcellms] at heq
    omega

theorem holiday_marks_only_at_midnight_witness :
    is_holiday ⟨⟨2024, 1, 1⟩, 0, 0, 0, 0⟩ [⟨⟨1970, 1, 1⟩, 12, 0, 0, 0⟩] =
      false :=
  holiday_marks_only_at_midnight.2 2024 1 (by norm_num) (by norm_num)
    (by norm_num) ⟨2024, 1, 1⟩ (by decide) _ (by decide)

/-- The spec's description of a holiday match (C9): an entry with
year-component 1970 matches the cell's day and month in any displayed
year; otherwise an entry matches the cell's date exactly. -/
def holiday_matches_spec (cell : Ymd) (item : JsDate) : Prop :=
  (item.ymd.y = 1970 ∧ item.ymd.m = cell.m ∧ item.ymd.d = cell.d) ∨
  item.ymd = cell

instance (cell : Ymd) (item : JsDate) :
    Decidable (holiday_matches_spec cell item) := by
  unfold holiday_matches_spec; infer_instance

theorem daysInMonth_1970_le (y m : Nat) :
    daysInMonth 1970 m ≤ daysInMonth y m := by
  unfold daysInMonth
  by_cases hm2 : m = 2
  · rw [if_pos hm2, if_pos hm2, show isLeap 1970 = false from by decide]
    norm_num
    split <;> omega
  · rw [if_neg hm2, if_neg hm2]

/-- A midnight holiday entry matches a valid midnight cell date exactly
when the spec's match predicate holds. -/
theorem holiday_item_iff (cell : Ymd) (it : JsDate)
    (hcv : validYmd cell) (hcy : 1 ≤ cell.y)
    (hiv : validYmd it.ymd) (hiy : 1 ≤ it.ymd.y) (hms : msOfDay it = 0) :
    (getTime ⟨cell, 0, 0, 0, 0⟩ = getTime (holiday_subst cell.y it)) ↔
      holiday_matches_spec cell it := by
  have hct : getTime ⟨cell, 0, 0, 0, 0⟩ = rataDie cell * 86400000 := by
    unfold getTime msOfDay
    simp
  unfold holiday_subst holiday_matches_spec
  obtain ⟨hi1, hi2, hi3, hi4⟩ := hiv
  by_cases h70 : it.ymd.y = 1970
  · rw [if_pos h70]
    have hnr : setFullYear it.ymd cell.y = ⟨cell.y, it.ymd.m, it.ymd.d⟩ := by
      unfold setFullYear
      apply rollDay_of_le
      have hle := daysInMonth_1970_le cell.y it.ymd.m
      rw [h70] at hi4
      omega
    have hsub : getTime { it with ymd := setFullYear it.ymd cell.y } =
        rataDie ⟨cell.y, it.ymd.m, it.ymd.d⟩ * 86400000 := by
      unfold getTime
      rw [hnr]
      have hms2 : msOfDay { it with ymd := (⟨cell.y, it.ymd.m, it.ymd.d⟩ : Ymd) } =
          msOfDay it := rfl
      rw [hms2, hms]
      simp
    rw [hct, hsub]
    have hvg : validYmd ⟨cell.y, it.ymd.m, it.ymd.d⟩ := by
      rw [validYmd_mk]
      have hle := daysInMonth_1970_le cell.y it.ymd.m
      rw [h70] at hi4
      exact ⟨hi1, hi2, hi3, by omega⟩
    constructor
    · intro heq
      have hrd : rataDie cell = rataDie ⟨cell.y, it.ymd.m, it.ymd.d⟩ := by
        omega
      have hce := rataDie_inj cell ⟨cell.y, it.ymd.m, it.ymd.d⟩ hcv hvg hcy
        (by simpa using hcy) hrd
      left
      refine ⟨h70, ?_, ?_⟩
      · rw [hce]
      · rw [hce]
    · rintro (⟨_, hmm, hdd⟩ | hexact)
      · rw [hmm, hdd]
      · rw [hexact]
  · rw [if_neg h70]
    have hit : getTime it = rataDie it.ymd * 86400000 := by
      unfold getTime
      rw [hms]
      simp
    rw [hct, hit]
    constructor
    · intro heq
      have hrd : rataDie cell = rataDie it.ymd := by omega
      right
      exact (rataDie_inj it.ymd cell ⟨hi1, hi2, hi3, hi4⟩ hcv hiy hcy hrd.symm)
    · rintro (⟨h70c, _, _⟩ | hexact)
      · exact absurd h70c h70
      · rw [hexact]

theorem countP_range_one (n : Nat) (p : Nat → Bool) (i0 : Nat) (h0 : i0 < n)
    (hp : p i0 = true) (huniq : ∀ j, j < n → p j = true → j = i0) :
    (List.range n).countP p = 1 := by
  induction n with
  | zero => omega
  | succ k ih =>
    rw [List.range_succ, List.countP_append]
    rcases Nat.lt_or_ge i0 k with hlt | hge
    · rw [ih hlt (fun j hj hpj => huniq j (by omega) hpj)]
      have hpk : p k = false := by
        by_contra hc
        rw [Bool.not_eq_false] at hc
        have := huniq k (by omega) hc
        omega
      simp [hpk]
    · have hik : i0 = k := by omega
      subst hik
      have hz : (List.range i0).countP p = 0 := by
        rw [List.countP_eq_zero]
        intro j hj
        rw [List.mem_range] at hj
        intro hpj
        have := huniq j (by omega) hpj
        omega
      rw [hz]
      simp [hp]

theorem jan1_cell_unique (y m : Nat) (hm1 : 1 ≤ m) (hm2 : m ≤ 12) (hy : 2 ≤ y)
    (i j : Nat) (hi : i < 42) (hj : j < 42)
    (hpi : (nextIter i (grid_start y m)).m = 1 ∧
      (nextIter i (grid_start y m)).d = 1)
    (hpj : (nextIter j (grid_start y m)).m = 1 ∧
      (nextIter j (grid_start y m)).d = 1) :
    i = j := by
  obtain ⟨hv, hy1, _, _⟩ := grid_start_spec y m hm1 hm2 hy
  obtain ⟨hvi, hyi, hri⟩ := nextIter_spec i _ hv hy1
  obtain ⟨hvj, hyj, hrj⟩ := nextIter_spec j _ hv hy1
  have hra : rataDie (nextIter i (grid_start y m)) =
      yearStart (nextIter i (grid_start y m)).y + 1 := by
    rw [rataDie_eq, hpi.1, hpi.2, daysBeforeMonth_one]
  have hrb : rataDie (nextIter j (grid_start y m)) =
      yearStart (nextIter j (grid_start y m)).y + 1 := by
    rw [rataDie_eq, hpj.1, hpj.2, daysBeforeMonth_one]
  rcases Nat.lt_trichotomy (nextIter i (grid_start y m)).y
      (nextIter j (grid_start y m)).y with hlt | heq | hgt
  · exfalso
    have hg := yearStart_gap _ _ hyi hlt
    have hdy := daysInYear_ge (nextIter i (grid_start y m)).y
    omega
  · rw [heq] at hra
    omega
  · exfalso
    have hg := yearStart_gap _ _ hyj hgt
    have hdy := daysInYear_ge (nextIter j (grid_start y m)).y
    omega

set_option maxHeartbeats 4000000 in
/-- C9 counterexample: the recurring entry 1970-01-01 12:00 has
year-component 1970 and matches the day and month of the cell 2024-01-01,
which the January 2024 grid contains, so the claim's criterion holds of
the configured list — yet no cell of that grid carries the holiday flag,
because `is_holiday` compares full millisecond timestamps and the
entry's noon offset never equals a cell's local midnight. -/
theorem holiday_iff_fails_for_noon_entry :
    (⟨2024, 1, 1⟩ : Ymd) ∈ grid_dates 2024 1 ∧
    holiday_matches_spec ⟨2024, 1, 1⟩ ⟨⟨1970, 1, 1⟩, 12, 0, 0, 0⟩ ∧
    (∀ cell ∈ grid_dates 2024 1,
      is_holiday ⟨cell, 0, 0, 0, 0⟩ [⟨⟨1970, 1, 1⟩, 12, 0, 0, 0⟩] = false) := by
  decide

set_option maxHeartbeats 1000000 in
/-- C9 (amended): for holiday entries whose time-of-day is local
midnight, a grid cell is flagged as a holiday iff the configured list
contains an entry that either has year-component 1970 and matches the
cell's day and month (recurring), or matches the cell's date exactly;
and if the recurring holiday 1970-01-01 is configured and the displayed
grid contains a January 1, exactly one cell carries the holiday flag. -/
theorem is_holiday_matches_spec :
    (∀ (y m : Nat), 1 ≤ m → m ≤ 12 → 2 ≤ y →
      ∀ cell ∈ grid_dates y m, ∀ hs : List JsDate,
      (∀ it ∈ hs, validYmd it.ymd ∧ 1 ≤ it.ymd.y ∧ msOfDay it = 0) →
      (is_holiday ⟨cell, 0, 0, 0, 0⟩ hs = true ↔
        ∃ it ∈ hs, holiday_matches_spec cell it)) ∧
    (∀ (y m : Nat), 1 ≤ m → m ≤ 12 → 2 ≤ y →
      (∃ cell ∈ grid_dates y m, cell.m = 1 ∧ cell.d = 1) →
      (grid_dates y m).countP
        (fun cell => is_holiday ⟨cell, 0, 0, 0, 0⟩
          [⟨⟨1970, 1, 1⟩, 0, 0, 0, 0⟩]) = 1) := by
  have hiff : ∀ (y m : Nat), 1 ≤ m → m ≤ 12 → 2 ≤ y →
      ∀ cell ∈ grid_dates y m, ∀ hs : List JsDate,
      (∀ it ∈ hs, validYmd it.ymd ∧ 1 ≤ it.ymd.y ∧ msOfDay it = 0) →
      (is_holiday ⟨cell, 0, 0, 0, 0⟩ hs = true ↔
        ∃ it ∈ hs, holiday_matches_spec cell it) := by
    intro y m hm1 hm2 hy cell hc hs hprops
    obtain ⟨hcv, hcy⟩ := grid_cell_valid y m hm1 hm2 hy cell hc
    rw [is_holiday_iff]
    constructor
    · rintro ⟨it, hit, heq⟩
      obtain ⟨hiv, hiy, hms⟩ := hprops it hit
      exact ⟨it, hit, (holiday_item_iff cell it hcv hcy hiv hiy hms).mp heq⟩
    · rintro ⟨it, hit, hsp⟩
      obtain ⟨hiv, hiy, hms⟩ := hprops it hit
      exact ⟨it, hit, (holiday_item_iff cell it hcv hcy hiv hiy hms).mpr hsp⟩
  refine ⟨hiff, ?_⟩
  intro y m hm1 hm2 hy hex
  obtain ⟨cell0, hc0, hm0, hd0⟩ := hex
  have hflag : ∀ cell ∈ grid_dates y m,
      (is_holiday ⟨cell, 0, 0, 0, 0⟩ [⟨⟨1970, 1, 1⟩, 0, 0, 0, 0⟩] = true) ↔
        (cell.m = 1 ∧ cell.d = 1) := by
    intro cell hc
    rw [hiff y m hm1 hm2 hy cell hc [⟨⟨1970, 1, 1⟩, 0, 0, 0, 0⟩]
      (by intro it hit
          rcases List.mem_cons.mp hit with rfl | hemp
          · exact ⟨by decide, by decide, by decide⟩
          · cases hemp)]
    constructor
    · rintro ⟨it, hit, hsp⟩
      rcases List.mem_cons.mp hit with rfl | hemp
      · rcases hsp with ⟨_, hmm, hdd⟩ | hexact
        · exact ⟨hmm.symm, hdd.symm⟩
        · rw [← hexact]
          exact ⟨rfl, rfl⟩
      · cases hemp
    · rintro ⟨hmm, hdd⟩
      exact ⟨⟨⟨1970, 1, 1⟩, 0, 0, 0, 0⟩, List.mem_cons_self _ _,
        Or.inl ⟨rfl, hmm.symm, hdd.symm⟩⟩
  have hc0m := hc0
  unfold grid_dates at hc0m
  rw [List.mem_map] at hc0m
  obtain ⟨i0, hi0, hcell0⟩ := hc0m
  rw [List.mem_range] at hi0
  have hdc : day_cell_count = 42 := rfl
  unfold grid_dates
  rw [List.countP_map]
  apply countP_range_one day_cell_count _ i0 hi0
  · simp only [Function.comp_apply]
    rw [hcell0]
    exact (hflag cell0 hc0).mpr ⟨hm0, hd0⟩
  · intro j hj hpj
    simp only [Function.comp_apply] at hpj
    have hcj : nextIter j (grid_start y m) ∈ grid_dates y m := by
      unfold grid_dates
      exact List.mem_map_of_mem _ (List.mem_range.mpr hj)
    have hj1 := (hflag _ hcj).mp hpj
    have hi1 : (nextIter i0 (grid_start y m)).m = 1 ∧
        (nextIter i0 (grid_start y m)).d = 1 := by
      rw [hcell0]
      exact ⟨hm0, hd0⟩
    exact jan1_cell_unique y m hm1 hm2 hy j i0 (by omega) (by omega) hj1 hi1

/-! ### Overlay lifecycle (`show` / `hide` / deferred hide; C2, C3, C8) -/

/-- An observation resource registered for a field by
`add_observation_events`: a scroll listener or a `ResizeObserver` on one
of the field's collected ancestors, or a window resize/scroll
listener. -/
inductive Res where
  | ancScroll (a : Nat)
  | ancResize (a : Nat)
  | winResize
  | winScroll
deriving DecidableEq, Repr

/-- Host environment: each field's collected ancestor chain
(`collect_ancestors`), its current text and configured format, and the
current date (`get_current_date`). -/
structure Env where
  ancestors : Nat → List Nat
  value : Nat → List Char
  format : Nat → List Char
  now : Ymd

/-- The widget's mutable state: the overlay's attached field
(`calendar.my_field`), the `i_am_still_active` flag, visibility
(`style.display`), the reposition callbacks currently registered (owning
field paired with the resource), and the calendar's current date
(`my_date`, date part). -/
structure CalState where
  my_field : Option Nat
  i_am_still_active : Bool
  visible : Bool
  registered : List (Nat × Res)
  my_date : Ymd
deriving DecidableEq, Repr

/-- `SimpleCalendar.add_observation_events`: per collected ancestor a
scroll listener and a `ResizeObserver`, then window resize and scroll
listeners; the created cleanup functions remove exactly these. -/
def add_observation_events (env : Env) (field : Nat) (s : CalState) :
    CalState :=
  { s with registered := s.registered ++
      ((env.ancestors field).flatMap
        (fun a => [(field, Res.ancScroll a), (field, Res.ancResize a)])) ++
      [(field, Res.winResize), (field, Res.winScroll)] }

/-- `SimpleCalendar.remove_observation_events`: runs the field's cleanup
functions, which remove every resource registered for that field. -/
def remove_observation_events (field : Nat) (s : CalState) : CalState :=
  { s with registered := s.registered.filter (fun p => p.1 ≠ field) }

/-- `SimpleCalendar.set_date` (state part): stores the date; the grid it
rebuilds is the derived `grid_dates` of that date's month. -/
def set_date_st (d : Ymd) (s : CalState) : CalState := { s with my_date := d }

/-- `SimpleCalendar.set_date_from_field`: parse the attached field's
trimmed value, falling back to the current date when the text is empty
or invalid, and set the result (date part). -/
def set_date_from_field (env : Env) (s : CalState) : CalState :=
  match s.my_field with
  | none => s
  | some f =>
    set_date_st
      (if trimChars (env.value f) ≠ [] then
        match string_to_time env.now (trimChars (env.value f))
            (env.format f) with
        | some r => ⟨r.y, r.m, r.d⟩
        | none => env.now
      else env.now) s

/-- `SimpleCalendar.attach_to_calender`: binds the overlay to the field
(the locale-dependent controls are rebuilt from its configuration), adds
the observation resources and seeds the date from the field's value. -/
def attach_to_calender (env : Env) (field : Nat) (s : CalState) : CalState :=
  set_date_from_field env
    (add_observation_events env field { s with my_field := some field })

/-- `SimpleCalendar.detach_from_calender`. -/
def detach_from_calender (field : Nat) (s : CalState) : CalState :=
  remove_observation_events field { s with my_field := none }

/-- `SimpleCalendar.hide`: detaches the currently attached field if any,
hides the overlay and clears the still-active flag. -/
def hide (s : CalState) : CalState :=
  { (match s.my_field with
     | some f => detach_from_calender f s
     | none => s) with
    visible := false, i_am_still_active := false }

/-- `SimpleCalendar.hide_if_inactive`: a no-op while the still-active
flag (read at call time, not at schedule time) is set, otherwise
`hide()`. -/
def hide_if_inactive (s : CalState) : CalState :=
  if s.i_am_still_active then s else hide s

/-- `SimpleCalendar.show`: for the already-attached field just re-mark
active, re-show and reposition; otherwise first `hide()` (full teardown
of the previous binding), then attach the new field, mark active and
visible. -/
def show_cal (env : Env) (field : Nat) (s : CalState) : CalState :=
  if s.my_field = some field then
    { s with i_am_still_active := true, visible := true }
  else
    { attach_to_calender env field (hide s) with
        i_am_still_active := true, visible := true }

/-- The `focus` handler that `init_field` installs on the field:
`hide()` then (the field being editable) `show(this)`. -/
def field_focus (env : Env) (field : Nat) (s : CalState) : CalState :=
  show_cal env field (hide s)

/-- The state effect of the field's `blur` handler: clears the
still-active flag and schedules `hide_if_inactive` after the fixed
delay; its field-value effect is `blur_revalidate`. -/
def field_blur (s : CalState) : CalState :=
  { s with i_am_still_active := false }

/-- The `focus` handler of every overlay control. -/
def control_focus (s : CalState) : CalState :=
  { s with i_am_still_active := true }

/-- The `blur` handler of every overlay control (it also schedules
`hide_if_inactive` after the fixed delay). -/
def control_blur (s : CalState) : CalState :=
  { s with i_am_still_active := false }

/-- `new Date(y, M, 0)` for a 0-based month index `M`: the last day of
the 1-based month `M` (December of the previous year for `M = 0`), with
whole-year overflow absorbed into the year. -/
def js_month_end (y M : Nat) : Ymd :=
  if M % 12 = 0 then ⟨y + M / 12 - 1, 12, 31⟩
  else ⟨y + M / 12, M % 12, daysInMonth (y + M / 12) (M % 12)⟩

/-- The `arrow_left` click handler:
`set_date(new Date(year, month, 0))` — the last day of the month before
the displayed one. -/
def arrow_left_click (s : CalState) : CalState :=
  set_date_st (js_month_end s.my_date.y (s.my_date.m - 1)) s

/-- The `arrow_right` click handler:
`set_date(new Date(year, month + 2, 0))` — the last day of the month
after the displayed one. -/
def arrow_right_click (s : CalState) : CalState :=
  set_date_st (js_month_end s.my_date.y (s.my_date.m + 1)) s

/-- The month-selector `change` handler:
`set_date(new Date(year, parseInt(value) + 1, 0))` for the selected
0-based month `v`. -/
def month_select_change (v : Nat) (s : CalState) : CalState :=
  set_date_st (js_month_end s.my_date.y (v + 1)) s

/-- The year-selector `change` handler:
`set_date(new Date(parseInt(value), month + 1, 0))`. -/
def year_select_change (v : Nat) (s : CalState) : CalState :=
  set_date_st (js_month_end v s.my_date.m) s

/-- A day-cell click with an attached field: the serialized date is
written into the field and its change event fired (external effects),
then `set_date` and `hide()`. -/
def day_cell_click (d : Ymd) (s : CalState) : CalState :=
  match s.my_field with
  | none => s
  | some _ => hide (set_date_st d s)

/-- The global Escape-key handler. -/
def handle_escape (s : CalState) : CalState := hide s

/-- The widget's operations. -/
inductive Ev where
  | evShow (f : Nat)
  | evHide
  | evHideIfInactive
  | evFieldFocus (f : Nat)
  | evFieldBlur
  | evCtrlFocus
  | evCtrlBlur
  | evArrowLeft
  | evArrowRight
  | evMonthSel (v : Nat)
  | evYearSel (v : Nat)
  | evCellClick (d : Ymd)
  | evEscape
deriving DecidableEq, Repr

def step (env : Env) : Ev → CalState → CalState
  | .evShow f => show_cal env f
  | .evHide => hide
  | .evHideIfInactive => hide_if_inactive
  | .evFieldFocus f => field_focus env f
  | .evFieldBlur => field_blur
  | .evCtrlFocus => control_focus
  | .evCtrlBlur => control_blur
  | .evArrowLeft => arrow_left_click
  | .evArrowRight => arrow_right_click
  | .evMonthSel v => month_select_change v
  | .evYearSel v => year_select_change v
  | .evCellClick d => day_cell_click d
  | .evEscape => handle_escape

/-- Single-owner invariant: every registered observation resource
belongs to the currently attached field. -/
def owner_inv (s : CalState) : Prop :=
  ∀ p ∈ s.registered, some p.1 = s.my_field

theorem hide_spec (s : CalState) (h : owner_inv s) :
    (hide s).registered = [] ∧ (hide s).my_field = none ∧
    (hide s).visible = false ∧ (hide s).i_am_still_active = false := by
  cases hf : s.my_field with
  | none =>
    have hreg : s.registered = [] := by
      rw [List.eq_nil_iff_forall_not_mem]
      intro p hp
      have h2 := h p hp
      rw [hf] at h2
      cases h2
    simp [hide, hf, hreg]
  | some f =>
    have hrm : (hide s).registered =
        s.registered.filter (fun p => p.1 ≠ f) := by
      unfold hide detach_from_calender remove_observation_events
      rw [hf]
    have hmf : (hide s).my_field = none := by
      unfold hide detach_from_calender remove_observation_events
      rw [hf]
    refine ⟨?_, hmf, rfl, rfl⟩
    rw [hrm, List.filter_eq_nil_iff]
    intro p hp
    have h2 := h p hp
    rw [hf] at h2
    injection h2 with hh
    simp [hh.symm]

theorem hide_inv (s : CalState) (h : owner_inv s) : owner_inv (hide s) := by
  intro p hp
  rw [(hide_spec s h).1] at hp
  cases hp

theorem owner_inv_same_reg (s s2 : CalState)
    (hreg : s2.registered = s.registered) (hf : s2.my_field = s.my_field)
    (h : owner_inv s) : owner_inv s2 := by
  intro p hp
  rw [hreg] at hp
  rw [hf]
  exact h p hp

theorem show_cal_field (env : Env) (field : Nat) (s : CalState) :
    (show_cal env field s).my_field = some field := by
  unfold show_cal
  by_cases hf : s.my_field = some field
  · rw [if_pos hf]
    exact hf
  · rw [if_neg hf]
    rfl

theorem show_cal_fresh (env : Env) (field : Nat) (s : CalState)
    (h : owner_inv s) (hne : s.my_field ≠ some field) :
    (show_cal env field s).registered =
      ((env.ancestors field).flatMap
        (fun a => [(field, Res.ancScroll a), (field, Res.ancResize a)])) ++
      [(field, Res.winResize), (field, Res.winScroll)] := by
  have hrfl : (show_cal env field s).registered =
      (hide s).registered ++
      ((env.ancestors field).flatMap
        (fun a => [(field, Res.ancScroll a), (field, Res.ancResize a)])) ++
      [(field, Res.winResize), (field, Res.winScroll)] := by
    unfold show_cal
    rw [if_neg hne]
    rfl
  rw [hrfl, (hide_spec s h).1, List.nil_append]

theorem show_cal_inv (env : Env) (field : Nat) (s : CalState)
    (h : owner_inv s) : owner_inv (show_cal env field s) := by
  by_cases hf : s.my_field = some field
  · have hsr : (show_cal env field s).registered = s.registered := by
      unfold show_cal
      rw [if_pos hf]
    have hsf : (show_cal env field s).my_field = s.my_field := by
      unfold show_cal
      rw [if_pos hf]
    exact owner_inv_same_reg s _ hsr hsf h
  · intro p hp
    rw [show_cal_fresh env field s h hf] at hp
    rw [show_cal_field env field s]
    rcases List.mem_append.mp hp with hp1 | hp2
    · rw [List.mem_flatMap] at hp1
      obtain ⟨a, _, hpa⟩ := hp1
      rcases List.mem_cons.mp hpa with rfl | hpa2
      · rfl
      · rcases List.mem_cons.mp hpa2 with rfl | hpa3
        · rfl
        · cases hpa3
    · rcases List.mem_cons.mp hp2 with rfl | hp3
      · rfl
      · rcases List.mem_cons.mp hp3 with rfl | hp4
        · rfl
        · cases hp4

theorem owner_inv_step (env : Env) (ev : Ev) (s : CalState)
    (h : owner_inv s) : owner_inv (step env ev s) := by
  cases ev with
  | evShow f => exact show_cal_inv env f s h
  | evHide => exact hide_inv s h
  | evHideIfInactive =>
    show owner_inv (hide_if_inactive s)
    unfold hide_if_inactive
    split
    · exact h
    · exact hide_inv s h
  | evFieldFocus f => exact show_cal_inv env f (hide s) (hide_inv s h)
  | evFieldBlur => exact owner_inv_same_reg s _ rfl rfl h
  | evCtrlFocus => exact owner_inv_same_reg s _ rfl rfl h
  | evCtrlBlur => exact owner_inv_same_reg s _ rfl rfl h
  | evArrowLeft => exact owner_inv_same_reg s _ rfl rfl h
  | evArrowRight => exact owner_inv_same_reg s _ rfl rfl h
  | evMonthSel v => exact owner_inv_same_reg s _ rfl rfl h
  | evYearSel v => exact owner_inv_same_reg s _ rfl rfl h
  | evCellClick d =>
    show owner_inv (day_cell_click d s)
    cases hfld : s.my_field with
    | none =>
      simp only [day_cell_click, hfld]
      exact h
    | some f =>
      simp only [day_cell_click, hfld]
      exact hide_inv (set_date_st d s)
        (owner_inv_same_reg s _ rfl rfl h)
  | evEscape => exact hide_inv s h

/-- C3: at most one field is attached at any time, and this single-owner
invariant — every registered reposition resource (ancestor scroll
listener, resize observer, window scroll/resize listener) belongs to the
attached field — is preserved by every operation; `show(fieldB)` while
`fieldA ≠ fieldB` is attached first runs `hide()`, which detaches
`fieldA` and runs its cleanup functions, so that afterwards the overlay
is attached to `fieldB`, no resource of `fieldA` remains registered, and
exactly `fieldB`'s observation resources are registered. -/
theorem show_detaches_previous_field :
    (∀ (env : Env) (ev : Ev) (s : CalState), owner_inv s →
      owner_inv (step env ev s)) ∧
    (∀ (env : Env) (s : CalState) (fA fB : Nat), owner_inv s → fA ≠ fB →
      (step env (.evShow fB) (step env (.evShow fA) s)).my_field = some fB ∧
      (∀ r : Res,
        (fA, r) ∉ (step env (.evShow fB) (step env (.evShow fA) s)).registered) ∧
      (step env (.evShow fB) (step env (.evShow fA) s)).registered =
        ((env.ancestors fB).flatMap
          (fun a => [(fB, Res.ancScroll a), (fB, Res.ancResize a)])) ++
        [(fB, Res.winResize), (fB, Res.winScroll)]) := by
  refine ⟨owner_inv_step, ?_⟩
  intro env s fA fB hinv hAB
  have h1 : owner_inv (step env (.evShow fA) s) :=
    owner_inv_step env (.evShow fA) s hinv
  have hfield1 : (step env (.evShow fA) s).my_field = some fA :=
    show_cal_field env fA s
  have hne : (step env (.evShow fA) s).my_field ≠ some fB := by
    rw [hfield1]
    intro hcon
    injection hcon with hcon2
    exact hAB hcon2
  have hreg2 := show_cal_fresh env fB _ h1 hne
  refine ⟨show_cal_field env fB _, ?_, hreg2⟩
  intro r hmem
  rw [show (step env (.evShow fB) (step env (.evShow fA) s)) =
    show_cal env fB (step env (.evShow fA) s) from rfl] at hmem
  rw [hreg2] at hmem
  rcases List.mem_append.mp hmem with hp1 | hp2
  · rw [List.mem_flatMap] at hp1
    obtain ⟨a, _, hpa⟩ := hp1
    rcases List.mem_cons.mp hpa with heq | hpa2
    · exact hAB (congrArg Prod.fst heq)
    · rcases List.mem_cons.mp hpa2 with heq | hpa3
      · exact hAB (congrArg Prod.fst heq)
      · cases hpa3
  · rcases List.mem_cons.mp hp2 with heq | hp3
    · exact hAB (congrArg Prod.fst heq)
    · rcases List.mem_cons.mp hp3 with heq | hp4
      · exact hAB (congrArg Prod.fst heq)
      · cases hp4

theorem show_detaches_previous_field_witness :
    (step ⟨fun _ => [7], fun _ => [], fun _ => (("Y-m-d").data), ⟨2025, 6, 15⟩⟩
        (.evShow 1)
        (step ⟨fun _ => [7], fun _ => [], fun _ => (("Y-m-d").data),
            ⟨2025, 6, 15⟩⟩ (.evShow 0)
          ⟨none, false, false, [], ⟨2024, 1, 1⟩⟩)).my_field = some 1 ∧
    (step ⟨fun _ => [7], fun _ => [], fun _ => (("Y-m-d").data), ⟨2025, 6, 15⟩⟩
        (.evShow 1)
        (step ⟨fun _ => [7], fun _ => [], fun _ => (("Y-m-d").data),
            ⟨2025, 6, 15⟩⟩ (.evShow 0)
          ⟨none, false, false, [], ⟨2024, 1, 1⟩⟩)).registered =
      [(1, Res.ancScroll 7), (1, Res.ancResize 7), (1, Res.winResize),
       (1, Res.winScroll)] := by
  have h := show_detaches_previous_field.2
    ⟨fun _ => [7], fun _ => [], fun _ => (("Y-m-d").data), ⟨2025, 6, 15⟩⟩
    ⟨none, false, false, [], ⟨2024, 1, 1⟩⟩ 0 1
    (fun p hp => absurd hp (List.not_mem_nil p)) (by omega)
  exact ⟨h.1, h.2.2⟩

/-- C8 counterexample: with the calendar on 2024-02-15, clicking the
next-month arrow sets `my_date` — the one date that drives both the
displayed month and the `selected_date` cell marking — to 2024-03-31,
so the selection-carrying date does change. -/
theorem navigation_changes_selected_date :
    (arrow_right_click ⟨some 0, true, true, [], ⟨2024, 2, 15⟩⟩).my_date =
      ⟨2024, 3, 31⟩ ∧
    (arrow_right_click ⟨some 0, true, true, [], ⟨2024, 2, 15⟩⟩).my_date ≠
      (⟨some 0, true, true, [], ⟨2024, 2, 15⟩⟩ : CalState).my_date := by
  decide

/-- C8 (amended): each navigation control only sets `my_date` to the
last day of its target month and rebuilds the grid; it never hides the
overlay and leaves the attached field, the still-active flag and the
registered resources unchanged.  Because `my_date` also carries the
`selected_date` marking, the selection highlight moves with it instead
of staying unchanged. -/
theorem navigation_only_changes_my_date (s : CalState) :
    ((arrow_left_click s).my_field = s.my_field ∧
     (arrow_left_click s).visible = s.visible ∧
     (arrow_left_click s).i_am_still_active = s.i_am_still_active ∧
     (arrow_left_click s).registered = s.registered ∧
     (arrow_left_click s).my_date =
       js_month_end s.my_date.y (s.my_date.m - 1)) ∧
    ((arrow_right_click s).my_field = s.my_field ∧
     (arrow_right_click s).visible = s.visible ∧
     (arrow_right_click s).i_am_still_active = s.i_am_still_active ∧
     (arrow_right_click s).registered = s.registered ∧
     (arrow_right_click s).my_date =
       js_month_end s.my_date.y (s.my_date.m + 1)) ∧
    (∀ v, (month_select_change v s).my_field = s.my_field ∧
     (month_select_change v s).visible = s.visible ∧
     (month_select_change v s).i_am_still_active = s.i_am_still_active ∧
     (month_select_change v s).registered = s.registered ∧
     (month_select_change v s).my_date =
       js_month_end s.my_date.y (v + 1)) ∧
    (∀ v, (year_select_change v s).my_field = s.my_field ∧
     (year_select_change v s).visible = s.visible ∧
     (year_select_change v s).i_am_still_active = s.i_am_still_active ∧
     (year_select_change v s).registered = s.registered ∧
     (year_select_change v s).my_date = js_month_end v s.my_date.m) :=
  ⟨⟨rfl, rfl, rfl, rfl, rfl⟩, ⟨rfl, rfl, rfl, rfl, rfl⟩,
   fun v => ⟨rfl, rfl, rfl, rfl, rfl⟩, fun v => ⟨rfl, rfl, rfl, rfl, rfl⟩⟩

/-! ### The deferred-hide protocol (C2) -/

/-- The fixed deferral of every scheduled `hide_if_inactive`:
`setTimeout(function () { SimpleCalendar.hide_if_inactive(); }, 300)`. -/
def hide_delay_ms : Nat := 300

/-- Widget state together with the fire times of the scheduled
`hide_if_inactive` timers. -/
structure TimedState where
  cal : CalState
  pending : List Nat
deriving Repr

/-- The events whose handlers schedule a deferred `hide_if_inactive`:
the field's blur and every overlay control's blur. -/
def schedules_hide (e : Ev) : Bool :=
  match e with
  | .evFieldBlur => true
  | .evCtrlBlur => true
  | _ => false

/-- Deliver one external event at time `t`. -/
def apply_timed (env : Env) (t : Nat) (e : Ev) (ts : TimedState) :
    TimedState :=
  ⟨step env e ts.cal,
   if schedules_hide e then ts.pending ++ [t + hide_delay_ms]
   else ts.pending⟩

/-- Fire every pending timer due by time `u` (each runs
`hide_if_inactive`, which re-reads the still-active flag when it
fires). -/
def fire_due (u : Nat) (ts : TimedState) : TimedState :=
  ⟨(ts.pending.filter (fun ft => ft ≤ u)).foldl
      (fun c _ => hide_if_inactive c) ts.cal,
   ts.pending.filter (fun ft => u < ft)⟩

/-- Run a time-ordered event list: timers due before an event fire
first (the host delivers a focus before a later timer), and every timer
due by `tEnd` fires at the end. -/
def run_timed (env : Env) : TimedState → List (Nat × Ev) → Nat → TimedState
  | ts, [], tEnd => fire_due tEnd ts
  | ts, (t, e) :: rest, tEnd =>
    run_timed env (apply_timed env t e (fire_due t ts)) rest tEnd

/-- C2: after any blur on the attached field or on any overlay control,
hiding is deferred by one fixed 300 ms delay; a focus landing within
that delay on the field or on an overlay control cancels the pending
hide and the overlay stays visible — although the still-active flag is
already false at schedule time, the deferred check reads it at
fire time; and when no such focus arrives within the delay, the timer
hides the overlay. -/
theorem deferred_hide_protocol :
    hide_delay_ms = 300 ∧
    (∀ c : CalState,
      hide_if_inactive c = if c.i_am_still_active then c else hide c) ∧
    (∀ (env : Env) (s : CalState) (fld t tf : Nat) (be fe : Ev),
      (be = .evFieldBlur ∨ be = .evCtrlBlur) →
      (fe = .evCtrlFocus ∨ fe = .evFieldFocus fld) →
      s.visible = true → s.my_field = some fld →
      t ≤ tf → tf < t + hide_delay_ms →
      (apply_timed env t be (fire_due t ⟨s, []⟩)).cal.i_am_still_active =
        false ∧
      (run_timed env ⟨s, []⟩ [(t, be), (tf, fe)]
        (t + hide_delay_ms)).cal.visible = true) ∧
    (∀ (env : Env) (s : CalState) (t : Nat) (be : Ev),
      (be = .evFieldBlur ∨ be = .evCtrlBlur) →
      (run_timed env ⟨s, []⟩ [(t, be)]
        (t + hide_delay_ms)).cal.visible = false) := by
  refine ⟨rfl, fun c => rfl, ?_, ?_⟩
  · intro env s fld t tf be fe hbe hfe hvis hfld ht1 ht2
    have hfu : ¬ (t + hide_delay_ms ≤ tf) := by omega
    refine ⟨?_, ?_⟩
    · rcases hbe with rfl | rfl <;> rfl
    · rcases hbe with rfl | rfl <;> rcases hfe with rfl | rfl <;>
        simp [run_timed, apply_timed, fire_due, step, schedules_hide,
          hide_if_inactive, field_blur, control_blur, control_focus,
          field_focus, show_cal, hide, hfld, hvis, hfu, ht2,
          detach_from_calender, remove_observation_events,
          attach_to_calender, set_date_from_field, add_observation_events,
          set_date_st]
  · intro env s t be hbe
    rcases hbe with rfl | rfl <;>
      simp [run_timed, apply_timed, fire_due, step, schedules_hide,
        hide_if_inactive, field_blur, control_blur, hide]

theorem deferred_hide_protocol_witness :
    (run_timed ⟨fun _ => [], fun _ => [], fun _ => (("Y-m-d").data),
        ⟨2025, 6, 15⟩⟩
      ⟨⟨some 0, true, true, [], ⟨2024, 1, 1⟩⟩, []⟩
      [(0, .evCtrlBlur), (100, .evCtrlFocus)] 300).cal.visible = true :=
  ((deferred_hide_protocol.2.2.1
    ⟨fun _ => [], fun _ => [], fun _ => (("Y-m-d").data), ⟨2025, 6, 15⟩⟩
    ⟨some 0, true, true, [], ⟨2024, 1, 1⟩⟩ 0 0 100 .evCtrlBlur .evCtrlFocus
    (Or.inr rfl) (Or.inl rfl) rfl rfl (by decide) (by decide)).2)

set_option maxHeartbeats 2000000 in
theorem is_holiday_matches_spec_witness :
    is_holiday ⟨⟨2024, 1, 1⟩, 0, 0, 0, 0⟩ [⟨⟨1970, 1, 1⟩, 0, 0, 0, 0⟩] =
      true :=
  (is_holiday_matches_spec.1 2024 1 (by norm_num) (by norm_num) (by norm_num)
    ⟨2024, 1, 1⟩ (by decide) _
    (by intro it hit
        rcases List.mem_cons.mp hit with rfl | hemp
        · exact ⟨by decide, by decide, by decide⟩
        · cases hemp)).mpr
    ⟨⟨⟨1970, 1, 1⟩, 0, 0, 0, 0⟩, List.mem_cons_self _ _,
      Or.inl ⟨rfl, rfl, rfl⟩⟩

end SimpleCalendar
